import Mathlib

/-!
Shallow embedding of the `Store` class of the Tryll dataset builder
(`lib/store.js`): the local file-backed document store for knowledge-chunk
datasets, together with proofs about its mutation operations, export/import
transform and history ledger.

Modelling conventions:
* JavaScript strings are Lean `String`s; `s.trim()` / `s.toLowerCase()` are
  modelled by `jsTrim` / `jsLower`, defined over the character list so that
  their properties are provable.
* The JS truthiness idiom `a || b` on (possibly `undefined`) strings is
  modelled by `jsOrS` / `jsOrOS` (the empty string and `undefined` are falsy).
* A JS object used as a string map (export-record metadata) is an ordered
  association list `List (String × String)`; property assignment is
  `objInsert` (update in place if the key exists, else append), matching JS
  object key-insertion-order semantics.
* `randomUUID()` and `new Date().toISOString()` are nondeterministic; each
  operation that mints uids / timestamps takes them as explicit parameters.
* The data directory is a `DiskState`: an association list of project files
  plus an association list of history files, mirroring `<name>.json` and
  `<name>.history.json`.
* Mutators are translated as functions returning
  `(Except String α) × Project`: the second component is the document the
  operation hands to `_save`; every `throw` site in the source occurs before
  the single `_save` call and is translated as `(.error msg, p)` with the
  document untouched.
-/

deriving instance DecidableEq for Except

namespace Tryll

/-- Whitespace test used by `jsTrim` (models the characters removed by
JavaScript's `String.prototype.trim`). -/
def isWs (c : Char) : Bool := c.isWhitespace

/-- Drop leading and trailing whitespace from a character list. -/
def trimChars (l : List Char) : List Char :=
  ((l.dropWhile isWs).reverse.dropWhile isWs).reverse

/-- Model of JavaScript `s.trim()`. -/
def jsTrim (s : String) : String := ⟨trimChars s.data⟩

/-- Model of JavaScript `s.toLowerCase()`. -/
def jsLower (s : String) : String := ⟨s.data.map Char.toLower⟩

/-- Model of JavaScript `a || b` for a string `a`: the empty string is falsy. -/
def jsOrS (a b : String) : String := if a = "" then b else a

/-- Model of JavaScript `a || b` where `a` may be `undefined` (`none`). -/
def jsOrOS (a : Option String) (b : String) : String :=
  match a with
  | none => b
  | some s => if s = "" then b else s

/-- Ordered association list standing for a JS object used as a string map. -/
abbrev ObjMap := List (String × String)

/-- JS property read `m[k]`: first (unique, in a real JS object) binding. -/
def objLookup (m : ObjMap) (k : String) : Option String :=
  (m.find? (fun kv => kv.1 == k)).map (fun kv => kv.2)

/-- JS property assignment `m[k] = v`: update in place if present, else
append (JS objects keep first-insertion key order). -/
def objInsert (m : ObjMap) (k v : String) : ObjMap :=
  match m with
  | [] => [(k, v)]
  | kv :: rest => if kv.1 = k then (k, v) :: rest else kv :: objInsert rest k v

/-- `const DEFAULT_LICENSE = 'CC BY-NC-SA 3.0'`. -/
def DEFAULT_LICENSE : String := "CC BY-NC-SA 3.0"

/-- `const STANDARD_META = ['page_title', 'source', 'license']`. -/
def STANDARD_META : List String := ["page_title", "source", "license"]

/-- `const MAX_HISTORY = 50`. -/
def MAX_HISTORY : Nat := 50

/-- One `{key, value}` entry of a chunk's `customFields` list. -/
structure CustomField where
  key : String
  value : String
deriving DecidableEq

/-- The three standard metadata fields every chunk carries. -/
structure Metadata where
  page_title : String
  source : String
  license : String
deriving DecidableEq

/-- A knowledge chunk.  `uid` models the internal `_uid` UUID (UUIDs are
modelled as naturals supplied by the caller). -/
structure Chunk where
  uid : Nat
  id : String
  text : String
  metadata : Metadata
  customFields : List CustomField
deriving DecidableEq

/-- A category: `{id: UUID, name, chunks}`. -/
structure Category where
  id : Nat
  name : String
  chunks : List Chunk
deriving DecidableEq

/-- A project document: `{name, createdAt, categories}`. -/
structure Project where
  name : String
  createdAt : String
  categories : List Category
deriving DecidableEq

/-- Placeholder values for out-of-range list reads (never hit on the
in-range reads the operations perform). -/
def dummyChunk : Chunk := ⟨0, "", "", ⟨"", "", ""⟩, []⟩

def dummyCategory : Category := ⟨0, "", []⟩

/-- All chunks of a project, in category-then-chunk iteration order. -/
def allChunks (p : Project) : List Chunk :=
  p.categories.flatMap (fun c => c.chunks)

/-- Total chunk count, as computed by `reduce((sum, c) => sum + c.chunks.length, 0)`. -/
def totalChunks (p : Project) : Nat :=
  (allChunks p).length

/-- Number of chunks in `p` whose `id` equals `i` exactly. -/
def idCount (p : Project) (i : String) : Nat :=
  (allChunks p).countP (fun ch => ch.id == i)

/-- The chunk at category index `ci`, chunk index `j`. -/
def chunkAt (p : Project) (ci j : Nat) : Chunk :=
  ((p.categories.getD ci dummyCategory).chunks.getD j dummyChunk)

/-- `_isIdTaken(data, id, excludeUid)`: does any chunk anywhere in the
project carry exactly this `id`, other than the chunk with uid `excludeUid`? -/
def isIdTaken (data : Project) (id : String) (excludeUid : Option Nat) : Bool :=
  data.categories.any (fun cat =>
    cat.chunks.any (fun ch => ch.id == id && some ch.uid != excludeUid))

/-- `_findCategory(data, name)` as an index: first category whose name
matches case-insensitively. -/
def findCategoryIdx (data : Project) (name : String) : Option Nat :=
  data.categories.findIdx? (fun c => jsLower c.name == jsLower name)

/-- Replace the element at one index of a list (identity when out of range). -/
def updateAt (l : List α) (n : Nat) (f : α → α) : List α :=
  match l, n with
  | [], _ => []
  | a :: as, 0 => f a :: as
  | a :: as, n + 1 => a :: updateAt as n f

/-- Append a chunk to the category at index `ci` (models `cat.chunks.push`). -/
def appendChunkAt (p : Project) (ci : Nat) (ch : Chunk) : Project :=
  { p with
    categories := updateAt p.categories ci (fun c => { c with chunks := c.chunks ++ [ch] }) }

/-- Overwrite the chunk at `(ci, j)` (models mutating the found chunk object). -/
def setChunkAt (p : Project) (ci j : Nat) (ch : Chunk) : Project :=
  { p with
    categories := updateAt p.categories ci (fun c => { c with chunks := c.chunks.set j ch }) }

/-- `_parseCustomFields(metadata)`: all non-standard keys of a supplied
metadata object, in order, as `{key, value}` pairs (`String(value ?? '')`
is the identity here because values are already modelled as strings). -/
def parseCustomFields (metadata : Option ObjMap) : List CustomField :=
  match metadata with
  | none => []
  | some m =>
    (m.filter (fun kv => !(STANDARD_META.contains kv.1))).map
      (fun kv => ⟨kv.1, kv.2⟩)

/-! ### Category mutators -/

/-- `createCategory(projectName, categoryName)` (body after `_load`). -/
def createCategory (categoryName : String) (uid : Nat) (data : Project) :
    (Except String Category) × Project :=
  let trimmed := jsTrim categoryName
  if trimmed = "" then (.error "Category name cannot be empty", data)
  else if data.categories.any (fun c => jsLower c.name == jsLower trimmed) then
    (.error ("Category \"" ++ trimmed ++ "\" already exists"), data)
  else
    let cat : Category := ⟨uid, trimmed, []⟩
    (.ok cat, { data with categories := data.categories ++ [cat] })

/-- `renameCategory(projectName, oldName, newName)` (body after `_load`). -/
def renameCategory (oldName newName : String) (data : Project) :
    (Except String (String × String)) × Project :=
  match findCategoryIdx data oldName with
  | none => (.error ("Category \"" ++ oldName ++ "\" not found"), data)
  | some ci =>
    let cat := data.categories.getD ci dummyCategory
    let trimmed := jsTrim newName
    if trimmed = "" then (.error "New name cannot be empty", data)
    else if data.categories.any
        (fun c => jsLower c.name == jsLower trimmed && c.id != cat.id) then
      (.error ("Category \"" ++ trimmed ++ "\" already exists"), data)
    else
      (.ok (oldName, trimmed),
        { data with categories := updateAt data.categories ci (fun c => { c with name := trimmed }) })

/-- `deleteCategory(projectName, categoryName)` (body after `_load`). -/
def deleteCategory (categoryName : String) (data : Project) :
    (Except String (String × Nat)) × Project :=
  match data.categories.findIdx? (fun c => jsLower c.name == jsLower categoryName) with
  | none => (.error ("Category \"" ++ categoryName ++ "\" not found"), data)
  | some idx =>
    let removed := data.categories.getD idx dummyCategory
    (.ok (removed.name, removed.chunks.length),
      { data with categories := data.categories.eraseIdx idx })

/-! ### Chunk mutators -/

/-- The chunk-spec argument of `addChunk` / `bulkAddChunks`: a plain JS
object whose fields may each be absent. -/
structure ChunkSpec where
  id : Option String
  text : Option String
  page_title : Option String
  source : Option String
  license : Option String
  metadata : Option ObjMap
deriving DecidableEq

/-- `chunk.metadata?.k`: optional-chained property read. -/
def specMetaGet (spec : ChunkSpec) (k : String) : Option String :=
  spec.metadata.bind (fun m => objLookup m k)

/-- The `newChunk` object literal built (identically) by `addChunk` and by
`bulkAddChunks`, for an already-trimmed non-empty id. -/
def mkChunk (spec : ChunkSpec) (id : String) (uid : Nat) : Chunk :=
  { uid := uid
    id := id
    text := jsOrOS spec.text ""
    metadata :=
      { page_title := jsOrOS spec.page_title (jsOrOS (specMetaGet spec "page_title") "")
        source := jsOrOS spec.source (jsOrOS (specMetaGet spec "source") "")
        license := jsOrOS spec.license (jsOrOS (specMetaGet spec "license") DEFAULT_LICENSE) }
    customFields := parseCustomFields spec.metadata }

/-- `addChunk(projectName, categoryName, chunk)` (body after `_load`). -/
def addChunk (categoryName : String) (spec : ChunkSpec) (uid : Nat) (data : Project) :
    (Except String (String × String)) × Project :=
  match findCategoryIdx data categoryName with
  | none => (.error ("Category \"" ++ categoryName ++ "\" not found"), data)
  | some ci =>
    let id := jsTrim (jsOrOS spec.id "")
    if id = "" then (.error "Chunk ID is required", data)
    else if isIdTaken data id none then
      (.error ("Chunk ID \"" ++ id ++ "\" already exists in this project. Try adding _1, _2 suffix."), data)
    else
      let newChunk := mkChunk spec id uid
      (.ok (newChunk.id, (data.categories.getD ci dummyCategory).name),
        appendChunkAt data ci newChunk)

/-- One recorded `bulkAddChunks` error: `{id, reason}`. -/
structure BulkErr where
  id : String
  reason : String
deriving DecidableEq

/-- Return value of `bulkAddChunks`. -/
structure BulkResult where
  added : Nat
  errors : Nat
  details : Option (List BulkErr)
  ids : List String
deriving DecidableEq

/-- The `for (const chunk of chunks)` loop of `bulkAddChunks`: validates each
entry against the progressively updated document and either appends it or
records an error. -/
def bulkGo (ci : Nat) : List ChunkSpec → Project → List String → List BulkErr → Nat →
    Project × List String × List BulkErr
  | [], data, added, errors, _ => (data, added, errors)
  | spec :: rest, data, added, errors, uid =>
    let id := jsTrim (jsOrOS spec.id "")
    if id = "" then
      bulkGo ci rest data added (errors ++ [⟨"(empty)", "ID is required"⟩]) uid
    else if isIdTaken data id none then
      bulkGo ci rest data added (errors ++ [⟨id, "Duplicate ID"⟩]) uid
    else
      bulkGo ci rest (appendChunkAt data ci (mkChunk spec id uid)) (added ++ [id]) errors (uid + 1)

/-- `bulkAddChunks(projectName, categoryName, chunks)` (body after `_load`). -/
def bulkAddChunks (categoryName : String) (specs : List ChunkSpec) (uid : Nat)
    (data : Project) : (Except String BulkResult) × Project :=
  match findCategoryIdx data categoryName with
  | none => (.error ("Category \"" ++ categoryName ++ "\" not found"), data)
  | some ci =>
    let (data', added, errors) := bulkGo ci specs data [] [] uid
    (.ok { added := added.length, errors := errors.length
           details := if errors.length = 0 then none else some errors
           ids := added },
      data')

/-- First position `(categoryIdx, chunkIdx)` of a chunk with exactly this id,
in the iteration order of `for (const cat of data.categories)` +
`cat.chunks.find(...)`. -/
def findChunkPos (cats : List Category) (cid : String) : Option (Nat × Nat) :=
  match cats with
  | [] => none
  | c :: rest =>
    match c.chunks.findIdx? (fun ch => ch.id == cid) with
    | some j => some (0, j)
    | none => (findChunkPos rest cid).map (fun ij => (ij.1 + 1, ij.2))

/-- The `updates` argument of `updateChunk`; absent fields are `none`. -/
structure ChunkUpdates where
  newId : Option String
  text : Option String
  page_title : Option String
  source : Option String
  license : Option String
  metadata : Option ObjMap
deriving DecidableEq

/-- `updateChunk(projectName, chunkId, updates)` (body after `_load`).
Note the source checks `_isIdTaken` on the raw `updates.newId` but assigns
`updates.newId.trim()`. -/
def updateChunk (chunkId : String) (u : ChunkUpdates) (data : Project) :
    (Except String (String × String)) × Project :=
  match findChunkPos data.categories chunkId with
  | none => (.error ("Chunk \"" ++ chunkId ++ "\" not found"), data)
  | some (ci, j) =>
    let cat := data.categories.getD ci dummyCategory
    let ch := cat.chunks.getD j dummyChunk
    let nid := jsOrOS u.newId ""
    let doRename := nid ≠ "" ∧ nid ≠ chunkId
    if doRename ∧ isIdTaken data nid (some ch.uid) then
      (.error ("Chunk ID \"" ++ nid ++ "\" already exists"), data)
    else
      let ch' : Chunk :=
        { ch with
          id := if doRename then jsTrim nid else ch.id
          text := u.text.getD ch.text
          metadata :=
            { page_title := u.page_title.getD ch.metadata.page_title
              source := u.source.getD ch.metadata.source
              license := u.license.getD ch.metadata.license }
          customFields :=
            match u.metadata with
            | some m =>
              let custom := parseCustomFields (some m)
              if custom.length ≠ 0 then custom else ch.customFields
            | none => ch.customFields }
      (.ok (ch'.id, cat.name), setChunkAt data ci j ch')

/-- `deleteChunk(projectName, chunkId)` (body after `_load`). -/
def deleteChunk (chunkId : String) (data : Project) :
    (Except String (String × String)) × Project :=
  match findChunkPos data.categories chunkId with
  | none => (.error ("Chunk \"" ++ chunkId ++ "\" not found"), data)
  | some (ci, j) =>
    let cat := data.categories.getD ci dummyCategory
    (.ok (chunkId, cat.name),
      { data with categories := updateAt data.categories ci (fun c => { c with chunks := c.chunks.eraseIdx j }) })

/-- The candidate id sequence tried by `duplicateChunk`:
`<id>_copy`, `<id>_copy_1`, `<id>_copy_2`, … -/
def copyCand (cid : String) : Nat → String
  | 0 => cid ++ "_copy"
  | n + 1 => cid ++ "_copy_" ++ toString (n + 1)

/-- The `while (this._isIdTaken(data, newId))` loop of `duplicateChunk`,
fuelled (the source loop terminates because only finitely many ids are
taken; `duplicateChunk` supplies fuel `totalChunks data + 1`). -/
def copyIdGo (data : Project) (cid : String) : Nat → Nat → String
  | 0, n => cid ++ "_copy_" ++ toString n
  | fuel + 1, n =>
    let cand := cid ++ "_copy_" ++ toString n
    if isIdTaken data cand none then copyIdGo data cid fuel (n + 1) else cand

/-- The new external id minted by `duplicateChunk`. -/
def copyId (data : Project) (cid : String) : String :=
  if isIdTaken data (cid ++ "_copy") none then copyIdGo data cid (totalChunks data + 1) 1
  else cid ++ "_copy"

/-- `duplicateChunk(projectName, chunkId)` (body after `_load`); the
`JSON.parse(JSON.stringify(ch))` deep copy is the identity on the modelled
value, and the spread then overrides `_uid` and `id`. -/
def duplicateChunk (chunkId : String) (uid : Nat) (data : Project) :
    (Except String (String × String × String)) × Project :=
  match findChunkPos data.categories chunkId with
  | none => (.error ("Chunk \"" ++ chunkId ++ "\" not found"), data)
  | some (ci, j) =>
    let cat := data.categories.getD ci dummyCategory
    let ch := cat.chunks.getD j dummyChunk
    let newId := copyId data chunkId
    let clone : Chunk := { ch with uid := uid, id := newId }
    (.ok (chunkId, newId, cat.name), appendChunkAt data ci clone)

/-- `moveChunk(projectName, chunkId, targetCategory)` (body after `_load`). -/
def moveChunk (chunkId : String) (targetCategory : String) (data : Project) :
    (Except String (String × String × String)) × Project :=
  match findCategoryIdx data targetCategory with
  | none => (.error ("Category \"" ++ targetCategory ++ "\" not found"), data)
  | some ti =>
    let targetCat := data.categories.getD ti dummyCategory
    match findChunkPos data.categories chunkId with
    | none => (.error ("Chunk \"" ++ chunkId ++ "\" not found"), data)
    | some (ci, j) =>
      let cat := data.categories.getD ci dummyCategory
      if cat.id = targetCat.id then (.error "Chunk is already in that category", data)
      else
        let ch := cat.chunks.getD j dummyChunk
        let data₁ :=
          { data with categories := updateAt data.categories ci (fun c => { c with chunks := c.chunks.eraseIdx j }) }
        (.ok (chunkId, cat.name, targetCat.name), appendChunkAt data₁ ti ch)

/-! ### Export / import -/

/-- One flat record produced by `exportProject` / consumed by `importJSON`:
`{id, text, metadata}` with `metadata` a JS object. -/
structure ExportEntry where
  id : String
  text : String
  metadata : ObjMap
deriving DecidableEq

/-- The export record of one chunk: the standard metadata object spread
first, then every custom field with a non-blank key assigned under its
trimmed key (so a colliding custom key overwrites the standard value). -/
def exportChunk (ch : Chunk) : ExportEntry :=
  { id := ch.id
    text := ch.text
    metadata :=
      ch.customFields.foldl
        (fun m cf => if cf.key ≠ "" ∧ jsTrim cf.key ≠ "" then objInsert m (jsTrim cf.key) cf.value else m)
        [("page_title", ch.metadata.page_title),
         ("source", ch.metadata.source),
         ("license", ch.metadata.license)] }

/-- `exportProject(projectName)` (body after `_load`). -/
def exportProject (data : Project) : List ExportEntry :=
  data.categories.flatMap (fun cat => cat.chunks.map exportChunk)

/-- Return value of `importJSON`. -/
structure ImportResult where
  category : String
  imported : Nat
  skipped : Nat
deriving DecidableEq

/-- The chunk pushed by `importJSON` for one accepted record. -/
def importChunk (e : ExportEntry) (id : String) (uid : Nat) : Chunk :=
  { uid := uid
    id := id
    text := jsOrS e.text ""
    metadata :=
      { page_title := jsOrOS (objLookup e.metadata "page_title") ""
        source := jsOrOS (objLookup e.metadata "source") ""
        license := jsOrOS (objLookup e.metadata "license") DEFAULT_LICENSE }
    customFields :=
      (e.metadata.filter (fun kv => !(STANDARD_META.contains kv.1))).map
        (fun kv => ⟨kv.1, kv.2⟩) }

/-- The `for (const entry of jsonArray)` loop of `importJSON`. -/
def importGo (ci : Nat) : List ExportEntry → Project → Nat → Nat → Nat →
    Project × Nat × Nat
  | [], data, imported, skipped, _ => (data, imported, skipped)
  | e :: rest, data, imported, skipped, uid =>
    let id := jsTrim (jsOrS e.id "")
    if id = "" then importGo ci rest data imported (skipped + 1) uid
    else if isIdTaken data id none then importGo ci rest data imported (skipped + 1) uid
    else importGo ci rest (appendChunkAt data ci (importChunk e id uid)) (imported + 1) skipped (uid + 1)

/-- The body of `importJSON` once the project document `data` is in hand:
resolve or create the target category, then run the entry loop. -/
def importInto (data : Project) (entries : List ExportEntry)
    (categoryName : Option String) (uid : Nat) : ImportResult × Project :=
  let catName := jsOrOS categoryName "Imported"
  let (data₁, ci) :=
    match data.categories.findIdx? (fun c => jsLower c.name == jsLower catName) with
    | some i => (data, i)
    | none =>
      ({ data with categories := data.categories ++ [⟨uid, catName, []⟩] },
       data.categories.length)
  let (data₂, imported, skipped) := importGo ci entries data₁ 0 0 (uid + 1)
  ({ category := catName, imported := imported, skipped := skipped }, data₂)

/-! ### Bulk metadata update and project merge -/

/-- Per-chunk effect of `bulkUpdateMetadata`: standard field overwritten, or
custom field upserted by key. -/
def bulkUpdateOne (field value : String) (ch : Chunk) : Chunk :=
  if STANDARD_META.contains field then
    { ch with metadata :=
        { page_title := if field = "page_title" then value else ch.metadata.page_title
          source := if field = "source" then value else ch.metadata.source
          license := if field = "license" then value else ch.metadata.license } }
  else
    { ch with customFields :=
        if ch.customFields.any (fun cf => cf.key == field) then
          ch.customFields.map (fun cf => if cf.key == field then { cf with value := value } else cf)
        else ch.customFields ++ [⟨field, value⟩] }

/-- `bulkUpdateMetadata(projectName, field, value, categoryName)` (body after
`_load`); a falsy (absent or empty) category name means every category. -/
def bulkUpdateMetadata (field value : String) (categoryName : Option String)
    (data : Project) : (Except String Nat) × Project :=
  let cn := jsOrOS categoryName ""
  if cn = "" then
    let data' :=
      { data with
        categories := data.categories.map (fun c => { c with chunks := c.chunks.map (bulkUpdateOne field value) }) }
    (.ok (totalChunks data), data')
  else
    match findCategoryIdx data cn with
    | none => (.error ("Category \"" ++ cn ++ "\" not found"), data)
    | some ci =>
      let data' :=
        { data with
          categories := updateAt data.categories ci (fun c => { c with chunks := c.chunks.map (bulkUpdateOne field value) }) }
      (.ok (data.categories.getD ci dummyCategory).chunks.length, data')

/-- Counters returned by `mergeProjects`. -/
structure MergeResult where
  categoriesMerged : Nat
  chunksAdded : Nat
  chunksSkipped : Nat
deriving DecidableEq

/-- Inner chunk loop of `mergeProjects` for one source category mapped to
target-category index `ti`. -/
def mergeChunksGo (ti : Nat) : List Chunk → Project → Nat → Nat → Nat →
    Project × Nat × Nat × Nat
  | [], target, added, skipped, uid => (target, added, skipped, uid)
  | ch :: rest, target, added, skipped, uid =>
    if isIdTaken target ch.id none then mergeChunksGo ti rest target added (skipped + 1) uid
    else
      mergeChunksGo ti rest (appendChunkAt target ti { ch with uid := uid })
        (added + 1) skipped (uid + 1)

/-- Outer category loop of `mergeProjects`. -/
def mergeGo : List Category → Project → Nat → Nat → Nat → Nat →
    Project × Nat × Nat × Nat
  | [], target, catsMerged, added, skipped, _ => (target, catsMerged, added, skipped)
  | srcCat :: rest, target, catsMerged, added, skipped, uid =>
    let (target₁, ti, catsMerged₁, uid₁) :=
      match target.categories.findIdx? (fun c => jsLower c.name == jsLower srcCat.name) with
      | some i => (target, i, catsMerged, uid)
      | none =>
        ({ target with categories := target.categories ++ [⟨uid, srcCat.name, []⟩] },
         target.categories.length, catsMerged + 1, uid + 1)
    let (target₂, added₂, skipped₂, uid₂) := mergeChunksGo ti srcCat.chunks target₁ added skipped uid₁
    mergeGo rest target₂ catsMerged₁ added₂ skipped₂ uid₂

/-- `mergeProjects(sourceName, targetName)` (body after both `_load`s): the
source is read only; the target is mutated and saved. -/
def mergeProjects (source target : Project) (uid : Nat) : MergeResult × Project :=
  let (target', catsMerged, added, skipped) := mergeGo source.categories target 0 0 0 uid
  ({ categoriesMerged := catsMerged, chunksAdded := added, chunksSkipped := skipped }, target')

/-! ### History ledger -/

/-- One history commit. -/
structure Commit where
  id : Nat
  timestamp : String
  source : String
  action : String
  summary : String
  statsCategories : Nat
  statsChunks : Nat
  snapshot : Project
deriving DecidableEq

/-! ### The persisted data directory -/

/-- The on-disk state: one JSON document per project name plus one history
document per project name. -/
structure DiskState where
  files : List (String × Project)
  histories : List (String × List Commit)
deriving DecidableEq

/-- `_load(name)` (success case): the file stored under `name`. -/
def loadFile (files : List (String × Project)) (name : String) : Option Project :=
  match files with
  | [] => none
  | f :: rest => if f.1 = name then some f.2 else loadFile rest name

/-- `_save(name, data)`: overwrite the file stored under `name`, creating it
if absent. -/
def saveFile (files : List (String × Project)) (name : String) (data : Project) :
    List (String × Project) :=
  match files with
  | [] => [(name, data)]
  | f :: rest => if f.1 = name then (name, data) :: rest else f :: saveFile rest name data

/-- `_loadHistory(name)`: missing history file means an empty commit list. -/
def loadHistory (histories : List (String × List Commit)) (name : String) : List Commit :=
  match histories with
  | [] => []
  | h :: rest => if h.1 = name then h.2 else loadHistory rest name

/-- `_saveHistory(name, history)`. -/
def saveHistory (histories : List (String × List Commit)) (name : String)
    (commits : List Commit) : List (String × List Commit) :=
  match histories with
  | [] => [(name, commits)]
  | h :: rest => if h.1 = name then (name, commits) :: rest else h :: saveHistory rest name commits

/-- The load-mutate-save cycle shared by every per-project mutator: load the
project document, run the operation, save the document the operation returns.
On an error the operation returns the loaded document unchanged (that is
claim C8), so the final write is the identity there, exactly as in the
source where every `throw` happens before the single `_save`. -/
def liftProj (name : String) (f : Project → (Except String α) × Project)
    (s : DiskState) : (Except String α) × DiskState :=
  match loadFile s.files name with
  | none => (.error ("Project \"" ++ name ++ "\" not found"), s)
  | some data =>
    let (r, data') := f data
    (r, { s with files := saveFile s.files name data' })

/-- The character class kept by `createProject`'s sanitizer
(`[^a-zA-Z0-9_\-. ]` removed). -/
def allowedChar (c : Char) : Bool :=
  c.isAlphanum || c = '_' || c = '-' || c = '.' || c = ' '

/-- `name.replace(/[^a-zA-Z0-9_\-. ]/g, '').trim()`. -/
def sanitizeName (name : String) : String :=
  jsTrim ⟨name.data.filter allowedChar⟩

/-- `createProject(name)`. -/
def createProject (name : String) (now : String) (s : DiskState) :
    (Except String Project) × DiskState :=
  let safeName := sanitizeName name
  if safeName = "" then (.error "Invalid project name", s)
  else if (loadFile s.files safeName).isSome then
    (.error ("Project \"" ++ safeName ++ "\" already exists"), s)
  else
    let project : Project := { name := safeName, createdAt := now, categories := [] }
    (.ok project, { s with files := saveFile s.files safeName project })

/-- `importJSON(projectName, jsonArray, categoryName)` at the store level:
a missing project document is created on the fly via `createProject` (which
immediately persists the empty document under the sanitized name), and the
final save goes to the requested name. -/
def storeImportJSON (name : String) (entries : List ExportEntry)
    (categoryName : Option String) (uid : Nat) (now : String) (s : DiskState) :
    (Except String ImportResult) × DiskState :=
  match loadFile s.files name with
  | some data =>
    let (r, data') := importInto data entries categoryName uid
    (.ok r, { s with files := saveFile s.files name data' })
  | none =>
    match createProject name now s with
    | (.error e, _) => (.error e, s)
    | (.ok data, s₁) =>
      let (r, data') := importInto data entries categoryName uid
      (.ok r, { s₁ with files := saveFile s₁.files name data' })

/-- `mergeProjects(sourceName, targetName)` at the store level. -/
def storeMergeProjects (sourceName targetName : String) (uid : Nat) (s : DiskState) :
    (Except String MergeResult) × DiskState :=
  match loadFile s.files sourceName with
  | none => (.error ("Project \"" ++ sourceName ++ "\" not found"), s)
  | some source =>
    match loadFile s.files targetName with
    | none => (.error ("Project \"" ++ targetName ++ "\" not found"), s)
    | some target =>
      let (r, target') := mergeProjects source target uid
      (.ok r, { s with files := saveFile s.files targetName target' })

/-- The caller-independent data of one `_commit` call. -/
structure CommitReq where
  action : String
  summary : String
  source : Option String
  uid : Nat
  now : String
deriving DecidableEq

/-- The commit object literal built by `_commit` for project state `data`. -/
def commitOf (req : CommitReq) (data : Project) : Commit :=
  { id := req.uid, timestamp := req.now, source := jsOrOS req.source "mcp"
    action := req.action, summary := req.summary
    statsCategories := data.categories.length, statsChunks := totalChunks data
    snapshot := data }

/-- `_commit(projectName, action, summary, source)`: best-effort — when the
project document cannot be loaded the exception is swallowed and nothing
happens; otherwise the new commit (with a full snapshot) is prepended and
the sequence truncated to `MAX_HISTORY` entries. -/
def commitStore (name : String) (req : CommitReq) (s : DiskState) : DiskState :=
  match loadFile s.files name with
  | none => s
  | some data =>
    let history := loadHistory s.histories name
    { s with histories := saveHistory s.histories name ((commitOf req data :: history).take MAX_HISTORY) }

/-- `rollback(name, commitId, source)`: find the commit, overwrite the live
document with its snapshot, record a `"rollback"` commit, return the live
document. -/
def storeRollback (name : String) (commitId : Nat) (source : Option String)
    (uid : Nat) (now : String) (s : DiskState) : (Except String Project) × DiskState :=
  let history := loadHistory s.histories name
  match history.find? (fun c => c.id == commitId) with
  | none => (.error "Commit not found", s)
  | some commit =>
    let s₁ : DiskState := { s with files := saveFile s.files name commit.snapshot }
    let s₂ := commitStore name
      { action := "rollback"
        summary := "Rolled back to commit from " ++ commit.timestamp
        source := some (jsOrOS source "mcp"), uid := uid, now := now } s₁
    match loadFile s₂.files name with
    | none => (.error ("Project \"" ++ name ++ "\" not found"), s₂)
    | some live => (.ok live, s₂)

/-! ### Store-level wrappers for the per-project mutators -/

def storeCreateCategory (name categoryName : String) (uid : Nat) (s : DiskState) :
    (Except String Category) × DiskState :=
  liftProj name (createCategory categoryName uid) s

def storeRenameCategory (name oldName newName : String) (s : DiskState) :
    (Except String (String × String)) × DiskState :=
  liftProj name (renameCategory oldName newName) s

def storeDeleteCategory (name categoryName : String) (s : DiskState) :
    (Except String (String × Nat)) × DiskState :=
  liftProj name (deleteCategory categoryName) s

def storeAddChunk (name categoryName : String) (spec : ChunkSpec) (uid : Nat)
    (s : DiskState) : (Except String (String × String)) × DiskState :=
  liftProj name (addChunk categoryName spec uid) s

def storeBulkAddChunks (name categoryName : String) (specs : List ChunkSpec)
    (uid : Nat) (s : DiskState) : (Except String BulkResult) × DiskState :=
  liftProj name (bulkAddChunks categoryName specs uid) s

def storeUpdateChunk (name chunkId : String) (u : ChunkUpdates) (s : DiskState) :
    (Except String (String × String)) × DiskState :=
  liftProj name (updateChunk chunkId u) s

def storeDeleteChunk (name chunkId : String) (s : DiskState) :
    (Except String (String × String)) × DiskState :=
  liftProj name (deleteChunk chunkId) s

def storeDuplicateChunk (name chunkId : String) (uid : Nat) (s : DiskState) :
    (Except String (String × String × String)) × DiskState :=
  liftProj name (duplicateChunk chunkId uid) s

def storeMoveChunk (name chunkId targetCategory : String) (s : DiskState) :
    (Except String (String × String × String)) × DiskState :=
  liftProj name (moveChunk chunkId targetCategory) s

def storeBulkUpdateMetadata (name field value : String) (categoryName : Option String)
    (s : DiskState) : (Except String Nat) × DiskState :=
  liftProj name (bulkUpdateMetadata field value categoryName) s

/-! ## Basic lemmas about the helpers -/

theorem jsOrS_empty_default (x : String) : jsOrS x "" = x := by
  by_cases h : x = "" <;> simp [jsOrS, h]

theorem jsOrOS_some (x d : String) : jsOrOS (some x) d = if x = "" then d else x := rfl

theorem loadFile_saveFile_same (files : List (String × Project)) (name : String)
    (p : Project) : loadFile (saveFile files name p) name = some p := by
  induction files with
  | nil => simp [saveFile, loadFile]
  | cons f rest ih =>
    by_cases h : f.1 = name
    · simp [saveFile, h, loadFile]
    · simpa [saveFile, h, loadFile] using ih

theorem saveFile_of_loadFile (files : List (String × Project)) (name : String)
    (p : Project) (h : loadFile files name = some p) : saveFile files name p = files := by
  induction files with
  | nil => simp [loadFile] at h
  | cons f rest ih =>
    obtain ⟨k, v⟩ := f
    by_cases hf : k = name
    · simp [loadFile, hf] at h
      simp [saveFile, hf, h]
    · simp [loadFile, hf] at h
      simp [saveFile, hf, ih h]

theorem loadHistory_saveHistory_same (hs : List (String × List Commit)) (name : String)
    (cs : List Commit) : loadHistory (saveHistory hs name cs) name = cs := by
  induction hs with
  | nil => simp [saveHistory, loadHistory]
  | cons h rest ih =>
    by_cases hf : h.1 = name
    · simp [saveHistory, hf, loadHistory]
    · simpa [saveHistory, hf, loadHistory] using ih

/-- Every load-mutate-save wrapper leaves every history document untouched. -/
theorem liftProj_histories (name : String) (f : Project → (Except String α) × Project)
    (s : DiskState) : (liftProj name f s).2.histories = s.histories := by
  unfold liftProj
  cases loadFile s.files name <;> rfl

theorem createProject_histories (name now : String) (s : DiskState) :
    (createProject name now s).2.histories = s.histories := by
  unfold createProject
  by_cases h1 : sanitizeName name = ""
  · simp [h1]
  · by_cases h2 : (loadFile s.files (sanitizeName name)).isSome <;> simp [h1, h2]

/-! ## C1 -/

/-- Fixture for C1: a project holding chunks `"x"` (uid 0) and `"y"` (uid 1). -/
def exC1proj : Project :=
  ⟨"t", "", [⟨0, "Cat", [⟨0, "x", "tx", ⟨"", "", "L"⟩, []⟩, ⟨1, "y", "ty", ⟨"", "", "L"⟩, []⟩]⟩]⟩

/-- C1: the claim that every state reachable through the store's mutators has
project-wide unique chunk ids fails on the code: `updateChunk`'s rename path
checks `_isIdTaken` on the *untrimmed* requested id but assigns the *trimmed*
one.  Renaming `"y"` to `" x "` while a chunk `"x"` exists passes the
uniqueness check (no chunk has id `" x "`) and stores id `"x"`, leaving two
chunks with the same id. -/
theorem updateChunk_untrimmed_rename_violates_unique_ids :
    isIdTaken exC1proj " x " (some 1) = false ∧
    (updateChunk "y" ⟨some " x ", none, none, none, none, none⟩ exC1proj).1.isOk = true ∧
    idCount exC1proj "x" = 1 ∧
    idCount (updateChunk "y" ⟨some " x ", none, none, none, none, none⟩ exC1proj).2 "x" = 2 := by
  decide

/-! ## C9 -/

/-- C9: in the local store, none of the ordinary mutating operations touches
any history document; within the store only `rollback` appends a commit. -/
theorem ordinary_ops_preserve_history :
    ∀ (s : DiskState) (name catName oldName newName cid tgt field value srcName tgtName now : String)
      (uid : Nat) (spec : ChunkSpec) (specs : List ChunkSpec) (u : ChunkUpdates)
      (entries : List ExportEntry) (catOpt : Option String),
      (createProject name now s).2.histories = s.histories ∧
      (storeCreateCategory name catName uid s).2.histories = s.histories ∧
      (storeRenameCategory name oldName newName s).2.histories = s.histories ∧
      (storeDeleteCategory name catName s).2.histories = s.histories ∧
      (storeAddChunk name catName spec uid s).2.histories = s.histories ∧
      (storeBulkAddChunks name catName specs uid s).2.histories = s.histories ∧
      (storeUpdateChunk name cid u s).2.histories = s.histories ∧
      (storeDeleteChunk name cid s).2.histories = s.histories ∧
      (storeDuplicateChunk name cid uid s).2.histories = s.histories ∧
      (storeMoveChunk name cid tgt s).2.histories = s.histories ∧
      (storeImportJSON name entries catOpt uid now s).2.histories = s.histories ∧
      (storeBulkUpdateMetadata name field value catOpt s).2.histories = s.histories ∧
      (storeMergeProjects srcName tgtName uid s).2.histories = s.histories := by
  intro s name catName oldName newName cid tgt field value srcName tgtName now uid spec specs u entries catOpt
  refine ⟨createProject_histories name now s, liftProj_histories .., liftProj_histories ..,
    liftProj_histories .., liftProj_histories .., liftProj_histories .., liftProj_histories ..,
    liftProj_histories .., liftProj_histories .., liftProj_histories .., ?_,
    liftProj_histories .., ?_⟩
  · have hcp := createProject_histories name now s
    unfold storeImportJSON
    cases hL : loadFile s.files name with
    | some data => rfl
    | none =>
      cases hC : createProject name now s with
      | mk r s₁ =>
        rw [hC] at hcp
        cases r with
        | error e => rfl
        | ok data => exact hcp
  · unfold storeMergeProjects
    cases loadFile s.files srcName with
    | none => rfl
    | some src =>
      cases loadFile s.files tgtName with
      | none => rfl
      | some tgtP => rfl

/-! ## C8 -/

theorem createCategory_error_frame (cn : String) (uid : Nat) (data : Project)
    (h : (createCategory cn uid data).1.isOk = false) :
    (createCategory cn uid data).2 = data := by
  revert h
  unfold createCategory
  dsimp only
  repeat' split
  all_goals intro h
  all_goals first | rfl | simp [Except.isOk, Except.toBool] at h

theorem renameCategory_error_frame (oldName newName : String) (data : Project)
    (h : (renameCategory oldName newName data).1.isOk = false) :
    (renameCategory oldName newName data).2 = data := by
  revert h
  unfold renameCategory
  dsimp only
  repeat' split
  all_goals intro h
  all_goals first | rfl | simp [Except.isOk, Except.toBool] at h

theorem deleteCategory_error_frame (cn : String) (data : Project)
    (h : (deleteCategory cn data).1.isOk = false) :
    (deleteCategory cn data).2 = data := by
  revert h
  unfold deleteCategory
  dsimp only
  repeat' split
  all_goals intro h
  all_goals first | rfl | simp [Except.isOk, Except.toBool] at h

theorem addChunk_error_frame (cn : String) (spec : ChunkSpec) (uid : Nat) (data : Project)
    (h : (addChunk cn spec uid data).1.isOk = false) :
    (addChunk cn spec uid data).2 = data := by
  revert h
  unfold addChunk
  dsimp only
  repeat' split
  all_goals intro h
  all_goals first | rfl | simp [Except.isOk, Except.toBool] at h

theorem updateChunk_error_frame (cid : String) (u : ChunkUpdates) (data : Project)
    (h : (updateChunk cid u data).1.isOk = false) :
    (updateChunk cid u data).2 = data := by
  revert h
  unfold updateChunk
  dsimp only
  repeat' split
  all_goals intro h
  all_goals first | rfl | simp [Except.isOk, Except.toBool] at h

theorem deleteChunk_error_frame (cid : String) (data : Project)
    (h : (deleteChunk cid data).1.isOk = false) :
    (deleteChunk cid data).2 = data := by
  revert h
  unfold deleteChunk
  dsimp only
  repeat' split
  all_goals intro h
  all_goals first | rfl | simp [Except.isOk, Except.toBool] at h

theorem duplicateChunk_error_frame (cid : String) (uid : Nat) (data : Project)
    (h : (duplicateChunk cid uid data).1.isOk = false) :
    (duplicateChunk cid uid data).2 = data := by
  revert h
  unfold duplicateChunk
  dsimp only
  repeat' split
  all_goals intro h
  all_goals first | rfl | simp [Except.isOk, Except.toBool] at h

theorem moveChunk_error_frame (cid tgt : String) (data : Project)
    (h : (moveChunk cid tgt data).1.isOk = false) :
    (moveChunk cid tgt data).2 = data := by
  revert h
  unfold moveChunk
  dsimp only
  repeat' split
  all_goals intro h
  all_goals first | rfl | simp [Except.isOk, Except.toBool] at h

/-- An erroring load-mutate-save cycle leaves the data directory untouched,
provided the operation returns the document unchanged on its error paths. -/
theorem liftProj_error_frame (name : String) (f : Project → (Except String α) × Project)
    (s : DiskState) (hf : ∀ data, (f data).1.isOk = false → (f data).2 = data)
    (hE : (liftProj name f s).1.isOk = false) : (liftProj name f s).2 = s := by
  unfold liftProj at *
  cases hL : loadFile s.files name with
  | none => rfl
  | some data =>
    rw [hL] at hE
    dsimp only at hE ⊢
    rcases hF : f data with ⟨r, data'⟩
    dsimp only
    have h2 := hf data hE
    rw [hF] at h2
    dsimp only at h2
    rw [h2, saveFile_of_loadFile s.files name data hL]

/-- C8: every single-entity mutator is atomic — whenever it fails, the
persisted state (every project document) is exactly what it was before the
call. -/
theorem mutators_error_leaves_disk_unchanged :
    ∀ (s : DiskState) (name catName oldName newName cid tgt : String)
      (uid : Nat) (spec : ChunkSpec) (u : ChunkUpdates),
      ((storeCreateCategory name catName uid s).1.isOk = false →
        (storeCreateCategory name catName uid s).2 = s) ∧
      ((storeRenameCategory name oldName newName s).1.isOk = false →
        (storeRenameCategory name oldName newName s).2 = s) ∧
      ((storeDeleteCategory name catName s).1.isOk = false →
        (storeDeleteCategory name catName s).2 = s) ∧
      ((storeAddChunk name catName spec uid s).1.isOk = false →
        (storeAddChunk name catName spec uid s).2 = s) ∧
      ((storeUpdateChunk name cid u s).1.isOk = false →
        (storeUpdateChunk name cid u s).2 = s) ∧
      ((storeDeleteChunk name cid s).1.isOk = false →
        (storeDeleteChunk name cid s).2 = s) ∧
      ((storeDuplicateChunk name cid uid s).1.isOk = false →
        (storeDuplicateChunk name cid uid s).2 = s) ∧
      ((storeMoveChunk name cid tgt s).1.isOk = false →
        (storeMoveChunk name cid tgt s).2 = s) := by
  intro s name catName oldName newName cid tgt uid spec u
  exact ⟨liftProj_error_frame _ _ _ (createCategory_error_frame catName uid),
    liftProj_error_frame _ _ _ (renameCategory_error_frame oldName newName),
    liftProj_error_frame _ _ _ (deleteCategory_error_frame catName),
    liftProj_error_frame _ _ _ (addChunk_error_frame catName spec uid),
    liftProj_error_frame _ _ _ (updateChunk_error_frame cid u),
    liftProj_error_frame _ _ _ (deleteChunk_error_frame cid),
    liftProj_error_frame _ _ _ (duplicateChunk_error_frame cid uid),
    liftProj_error_frame _ _ _ (moveChunk_error_frame cid tgt)⟩

/-- Fixture for the C8 witness: a data directory with one project holding a
category `Mobs` and a chunk `creeper`. -/
def exC8disk : DiskState :=
  ⟨[("demo", ⟨"demo", "", [⟨0, "Mobs", [⟨0, "creeper", "A hostile mob", ⟨"", "", "L"⟩, []⟩]⟩]⟩)], []⟩

/-- Witness for C8: concrete failing calls (empty name, missing category,
duplicate chunk id, missing chunk, move into the current category) all leave
the data directory exactly as it was. -/
theorem mutators_error_leaves_disk_unchanged_witness :
    (storeCreateCategory "demo" " " 3 exC8disk).2 = exC8disk ∧
    (storeRenameCategory "demo" "Nope" "X" exC8disk).2 = exC8disk ∧
    (storeDeleteCategory "demo" "Nope" exC8disk).2 = exC8disk ∧
    (storeAddChunk "demo" "Mobs" ⟨some "creeper", some "dup", none, none, none, none⟩ 3 exC8disk).2 = exC8disk ∧
    (storeUpdateChunk "demo" "ghost" ⟨none, some "t", none, none, none, none⟩ exC8disk).2 = exC8disk ∧
    (storeDeleteChunk "demo" "ghost" exC8disk).2 = exC8disk ∧
    (storeDuplicateChunk "demo" "ghost" 3 exC8disk).2 = exC8disk ∧
    (storeMoveChunk "demo" "creeper" "Mobs" exC8disk).2 = exC8disk := by
  obtain ⟨h1, h2, h3, h4, h5, h6, h7, h8⟩ :=
    mutators_error_leaves_disk_unchanged exC8disk "demo" " " "Nope" "X" "ghost" "Mobs" 3
      ⟨some "creeper", some "dup", none, none, none, none⟩ ⟨none, some "t", none, none, none, none⟩
  exact ⟨h1 (by decide), h2 (by decide), h3 (by decide),
    mutators_error_leaves_disk_unchanged exC8disk "demo" "Mobs" "Nope" "X" "ghost" "Mobs" 3
      ⟨some "creeper", some "dup", none, none, none, none⟩
      ⟨none, some "t", none, none, none, none⟩ |>.2.2.2.1 (by decide),
    h5 (by decide), h6 (by decide), h7 (by decide),
    mutators_error_leaves_disk_unchanged exC8disk "demo" "Mobs" "Nope" "X" "creeper" "Mobs" 3
      ⟨some "creeper", some "dup", none, none, none, none⟩
      ⟨none, some "t", none, none, none, none⟩ |>.2.2.2.2.2.2.2 (by decide)⟩

/-! ## C5 -/

/-- Running a sequence of `_commit` calls against one project, in order. -/
def applyCommits (name : String) (reqs : List CommitReq) (s : DiskState) : DiskState :=
  match reqs with
  | [] => s
  | r :: rest => applyCommits name rest (commitStore name r s)

theorem commitStore_files (name : String) (req : CommitReq) (s : DiskState) :
    (commitStore name req s).files = s.files := by
  unfold commitStore
  cases loadFile s.files name <;> rfl

theorem commitStore_histories_of_load (name : String) (req : CommitReq) (s : DiskState)
    (p : Project) (h : loadFile s.files name = some p) :
    loadHistory (commitStore name req s).histories name =
      (commitOf req p :: loadHistory s.histories name).take MAX_HISTORY := by
  unfold commitStore
  rw [h]
  exact loadHistory_saveHistory_same ..

theorem take_cap_cons (c : Commit) (l : List Commit) :
    (c :: l.take MAX_HISTORY).take MAX_HISTORY = (c :: l).take MAX_HISTORY := by
  show (c :: l.take 50).take 50 = (c :: l).take 50
  simp [List.take_succ_cons, List.take_take]

theorem applyCommits_formula (name : String) :
    ∀ (reqs : List CommitReq) (s : DiskState) (p : Project) (L : List Commit),
      loadFile s.files name = some p →
      loadHistory s.histories name = L.take MAX_HISTORY →
      loadHistory (applyCommits name reqs s).histories name =
        (reqs.reverse.map (fun r => commitOf r p) ++ L).take MAX_HISTORY := by
  intro reqs
  induction reqs with
  | nil => intro s p L hp hL; simpa [applyCommits] using hL
  | cons r rest ih =>
    intro s p L hp hL
    have hp' : loadFile (commitStore name r s).files name = some p := by
      rw [commitStore_files]; exact hp
    have hL' : loadHistory (commitStore name r s).histories name =
        (commitOf r p :: L).take MAX_HISTORY := by
      rw [commitStore_histories_of_load name r s p hp, hL, take_cap_cons]
    have := ih (commitStore name r s) p (commitOf r p :: L) hp' hL'
    simpa [applyCommits, List.map_append] using this

/-- C5: the per-project history sequence is newest-first (each `_commit`
prepends) and capped at 50 entries with the oldest dropped: after any run of
commits against a project present on disk the history is the reversed run
(newest first) prefixed to the prior history and truncated to 50; in
particular 60 commits on a project with no prior history retain exactly the
50 most recent, newest first. -/
theorem history_cap_spec :
    ∀ (s : DiskState) (name : String) (reqs : List CommitReq) (p : Project),
      loadFile s.files name = some p →
      (reqs ≠ [] →
        loadHistory (applyCommits name reqs s).histories name =
          (reqs.reverse.map (fun r => commitOf r p) ++ loadHistory s.histories name).take MAX_HISTORY) ∧
      (reqs ≠ [] → (loadHistory (applyCommits name reqs s).histories name).length ≤ MAX_HISTORY) ∧
      (reqs.length = 60 → loadHistory s.histories name = [] →
        loadHistory (applyCommits name reqs s).histories name =
          (reqs.reverse.map (fun r => commitOf r p)).take MAX_HISTORY ∧
        (loadHistory (applyCommits name reqs s).histories name).length = MAX_HISTORY) := by
  intro s name reqs p hp
  have main : reqs ≠ [] →
      loadHistory (applyCommits name reqs s).histories name =
        (reqs.reverse.map (fun r => commitOf r p) ++ loadHistory s.histories name).take MAX_HISTORY := by
    intro hne
    cases reqs with
    | nil => exact absurd rfl hne
    | cons r rest =>
      have hp' : loadFile (commitStore name r s).files name = some p := by
        rw [commitStore_files]; exact hp
      have hL' : loadHistory (commitStore name r s).histories name =
          (commitOf r p :: loadHistory s.histories name).take MAX_HISTORY :=
        commitStore_histories_of_load name r s p hp
      have := applyCommits_formula name rest (commitStore name r s) p
        (commitOf r p :: loadHistory s.histories name) hp' hL'
      simpa [applyCommits, List.map_append] using this
  refine ⟨main, ?_, ?_⟩
  · intro hne
    rw [main hne]
    exact List.length_take_le ..
  · intro h60 hemp
    have hne : reqs ≠ [] := by
      intro h; rw [h] at h60; simp at h60
    have h1 := main hne
    rw [hemp, List.append_nil] at h1
    refine ⟨h1, ?_⟩
    rw [h1, List.length_take]
    have : (reqs.reverse.map (fun r => commitOf r p)).length = 60 := by
      simp [h60]
    rw [this]
    rfl

/-- Fixture for the C5 witness: 60 distinct commit requests. -/
def exC5reqs : List CommitReq :=
  (List.range 60).map (fun i => ⟨"add_chunk", "s", none, i, "T"⟩)

/-- Fixture for the C5 witness: a disk with one project and no history. -/
def exC5disk : DiskState := ⟨[("p", ⟨"p", "", []⟩)], []⟩

/-- Witness for C5: committing 60 times on a fresh project leaves exactly 50
history entries, and they are the 50 most recent, newest first. -/
theorem history_cap_spec_witness :
    loadHistory (applyCommits "p" exC5reqs exC5disk).histories "p" =
      (exC5reqs.reverse.map (fun r => commitOf r ⟨"p", "", []⟩)).take MAX_HISTORY ∧
    (loadHistory (applyCommits "p" exC5reqs exC5disk).histories "p").length = MAX_HISTORY := by
  exact (history_cap_spec exC5disk "p" exC5reqs ⟨"p", "", []⟩ rfl).2.2 (by decide) rfl

/-! ## C4 -/

/-- C4: `rollback` fails with a not-found error (leaving the disk untouched)
when no commit carries the requested id; otherwise it overwrites the live
project document with the commit's snapshot (a destructive replace), records
a new `"rollback"` commit whose summary references the restored commit's
timestamp, and returns the restored live state. -/
theorem rollback_spec :
    ∀ (s : DiskState) (name : String) (commitId uid : Nat) (src : Option String) (now : String),
      ((loadHistory s.histories name).find? (fun c => c.id == commitId) = none →
        (storeRollback name commitId src uid now s).1 = .error "Commit not found" ∧
        (storeRollback name commitId src uid now s).2 = s) ∧
      (∀ commit, (loadHistory s.histories name).find? (fun c => c.id == commitId) = some commit →
        (storeRollback name commitId src uid now s).1 = .ok commit.snapshot ∧
        loadFile (storeRollback name commitId src uid now s).2.files name = some commit.snapshot ∧
        loadHistory (storeRollback name commitId src uid now s).2.histories name =
          (commitOf ⟨"rollback", "Rolled back to commit from " ++ commit.timestamp,
              some (jsOrOS src "mcp"), uid, now⟩ commit.snapshot
            :: loadHistory s.histories name).take MAX_HISTORY) := by
  intro s name commitId uid src now
  constructor
  · intro hN
    unfold storeRollback
    dsimp only
    rw [hN]
    exact ⟨rfl, rfl⟩
  · intro commit hF
    have hload : loadFile (saveFile s.files name commit.snapshot) name = some commit.snapshot :=
      loadFile_saveFile_same ..
    have hfiles : (commitStore name
        ⟨"rollback", "Rolled back to commit from " ++ commit.timestamp,
          some (jsOrOS src "mcp"), uid, now⟩
        { s with files := saveFile s.files name commit.snapshot }).files =
          saveFile s.files name commit.snapshot := commitStore_files ..
    have hload₂ : loadFile (commitStore name
        ⟨"rollback", "Rolled back to commit from " ++ commit.timestamp,
          some (jsOrOS src "mcp"), uid, now⟩
        { s with files := saveFile s.files name commit.snapshot }).files name =
          some commit.snapshot := by rw [hfiles]; exact hload
    have hhist := commitStore_histories_of_load name
      ⟨"rollback", "Rolled back to commit from " ++ commit.timestamp,
        some (jsOrOS src "mcp"), uid, now⟩
      { s with files := saveFile s.files name commit.snapshot } commit.snapshot hload
    unfold storeRollback
    dsimp only
    rw [hF]
    dsimp only
    rw [hload₂]
    exact ⟨rfl, hload₂, hhist⟩

/-- Fixture for the C4 witness: a disk whose project `"p"` currently holds
one chunk and whose history has a single commit (id 5) snapshotting an
older, different state. -/
def exC4disk : DiskState :=
  ⟨[("p", ⟨"p", "", [⟨0, "C", [⟨0, "x", "new", ⟨"", "", "L"⟩, []⟩]⟩]⟩)],
   [("p", [⟨5, "TS", "mcp", "add_chunk", "s", 0, 0, ⟨"p", "", []⟩⟩])]⟩

/-- Witness for C4: rolling back to the stored commit replaces the live
document with the snapshot, returns it, and prepends a `"rollback"` commit
referencing the snapshot's timestamp; a missing commit id errors and leaves
the disk unchanged. -/
theorem rollback_spec_witness :
    ((storeRollback "p" 9 none 7 "NOW" exC4disk).1 = .error "Commit not found" ∧
      (storeRollback "p" 9 none 7 "NOW" exC4disk).2 = exC4disk) ∧
    ((storeRollback "p" 5 none 7 "NOW" exC4disk).1 = .ok ⟨"p", "", []⟩ ∧
      loadFile (storeRollback "p" 5 none 7 "NOW" exC4disk).2.files "p" = some ⟨"p", "", []⟩ ∧
      loadHistory (storeRollback "p" 5 none 7 "NOW" exC4disk).2.histories "p" =
        (commitOf ⟨"rollback", "Rolled back to commit from " ++ "TS", some (jsOrOS none "mcp"), 7, "NOW"⟩
            ⟨"p", "", []⟩
          :: loadHistory exC4disk.histories "p").take MAX_HISTORY) := by
  constructor
  · exact (rollback_spec exC4disk "p" 9 7 none "NOW").1 (by decide)
  · exact (rollback_spec exC4disk "p" 5 7 none "NOW").2
      ⟨5, "TS", "mcp", "add_chunk", "s", 0, 0, ⟨"p", "", []⟩⟩ (by decide)

/-! ## C2 -/

theorem findIdx?_lt_length (p : α → Bool) :
    ∀ (l : List α) (i : Nat), l.findIdx? p = some i → i < l.length := by
  intro l
  induction l with
  | nil => intro i h; simp [List.findIdx?] at h
  | cons a as ih =>
    intro i h
    rw [List.findIdx?_cons] at h
    by_cases hp : p a
    · simp [hp] at h
      simp only [List.length_cons]
      omega
    · simp [hp] at h
      obtain ⟨j, hj, rfl⟩ := h
      have := ih j hj
      simp only [List.length_cons]
      omega

theorem updateAt_length (l : List α) (f : α → α) : ∀ n, (updateAt l n f).length = l.length := by
  induction l with
  | nil => intro n; rfl
  | cons a as ih =>
    intro n
    cases n with
    | zero => rfl
    | succ m => simpa [updateAt] using ih m

theorem flatMap_updateAt_append (ch : Chunk) :
    ∀ (cats : List Category) (ci : Nat), ci < cats.length →
      ((updateAt cats ci (fun c => { c with chunks := c.chunks ++ [ch] })).flatMap
          (fun c => c.chunks)).length =
        (cats.flatMap (fun c => c.chunks)).length + 1 := by
  intro cats
  induction cats with
  | nil => intro ci h; simp at h
  | cons c rest ih =>
    intro ci h
    cases ci with
    | zero =>
      show ((({ c with chunks := c.chunks ++ [ch] } : Category) :: rest).flatMap
          (fun c => c.chunks)).length = ((c :: rest).flatMap (fun c => c.chunks)).length + 1
      rw [List.flatMap_cons, List.flatMap_cons, List.length_append, List.length_append]
      simp only [List.length_append, List.length_cons, List.length_nil]
      omega
    | succ m =>
      have hm : m < rest.length := by simpa using h
      show ((c :: updateAt rest m (fun c => { c with chunks := c.chunks ++ [ch] })).flatMap
          (fun c => c.chunks)).length = ((c :: rest).flatMap (fun c => c.chunks)).length + 1
      rw [List.flatMap_cons, List.flatMap_cons, List.length_append, List.length_append, ih m hm]
      omega

theorem totalChunks_appendChunkAt (p : Project) (ci : Nat) (ch : Chunk)
    (h : ci < p.categories.length) :
    totalChunks (appendChunkAt p ci ch) = totalChunks p + 1 := by
  unfold totalChunks allChunks appendChunkAt
  exact flatMap_updateAt_append ch p.categories ci h

theorem appendChunkAt_categories_length (p : Project) (ci : Nat) (ch : Chunk) :
    (appendChunkAt p ci ch).categories.length = p.categories.length := by
  unfold appendChunkAt
  exact updateAt_length ..

/-- Counting invariant of the `bulkAddChunks` entry loop: every entry lands
either in the added list or in the error list, and the project gains exactly
the added chunks. -/
theorem bulkGo_counts (ci : Nat) :
    ∀ (specs : List ChunkSpec) (data : Project) (added : List String)
      (errors : List BulkErr) (uid : Nat), ci < data.categories.length →
      (bulkGo ci specs data added errors uid).2.1.length +
          (bulkGo ci specs data added errors uid).2.2.length =
        added.length + errors.length + specs.length ∧
      totalChunks (bulkGo ci specs data added errors uid).1 + added.length =
        totalChunks data + (bulkGo ci specs data added errors uid).2.1.length := by
  intro specs
  induction specs with
  | nil => intro data added errors uid hci; simp [bulkGo]
  | cons spec rest ih =>
    intro data added errors uid hci
    unfold bulkGo
    dsimp only
    by_cases h1 : jsTrim (jsOrOS spec.id "") = ""
    · rw [if_pos h1]
      have := ih data added (errors ++ [⟨"(empty)", "ID is required"⟩]) uid hci
      constructor
      · rw [this.1]; simp only [List.length_append, List.length_cons, List.length_nil]; omega
      · exact this.2
    · rw [if_neg h1]
      by_cases h2 : isIdTaken data (jsTrim (jsOrOS spec.id "")) none = true
      · rw [if_pos h2]
        have := ih data added (errors ++ [⟨jsTrim (jsOrOS spec.id ""), "Duplicate ID"⟩]) uid hci
        constructor
        · rw [this.1]; simp only [List.length_append, List.length_cons, List.length_nil]; omega
        · exact this.2
      · rw [if_neg h2]
        have hci' : ci < (appendChunkAt data ci
            (mkChunk spec (jsTrim (jsOrOS spec.id "")) uid)).categories.length := by
          rw [appendChunkAt_categories_length]; exact hci
        have := ih (appendChunkAt data ci (mkChunk spec (jsTrim (jsOrOS spec.id "")) uid))
          (added ++ [jsTrim (jsOrOS spec.id "")]) errors (uid + 1) hci'
        have happ := totalChunks_appendChunkAt data ci
          (mkChunk spec (jsTrim (jsOrOS spec.id "")) uid) hci
        constructor
        · rw [this.1]; simp only [List.length_append, List.length_cons, List.length_nil]; omega
        · have h3 := this.2
          rw [happ] at h3
          simp only [List.length_append, List.length_cons, List.length_nil] at h3 ⊢
          omega

/-- Fixture for C2: a project with one category `Cat` and one chunk `x`. -/
def exC2proj : Project := ⟨"t", "", [⟨0, "Cat", [⟨0, "x", "tx", ⟨"", "", "L"⟩, []⟩]⟩]⟩

/-- Fixture for C2: a batch whose second entry duplicates the id the first
entry just introduced — valid only against the un-updated project state. -/
def exC2batch : List ChunkSpec :=
  [⟨some "newx", some "t1", none, none, none, none⟩,
   ⟨some "newx", some "t2", none, none, none, none⟩]

/-- C2: `bulkAddChunks` validates each entry against the progressively
updated project, never hard-fails once the category is found (one failing
entry cannot abort the batch), records every entry as either added or
errored, and persists exactly the added chunks; in particular a batch of one
valid and one duplicate-id entry reports `added = 1`, `errors = 1` (with the
duplicate recorded) and persists exactly one new chunk, and a blank id is
recorded as an `ID is required` error. -/
theorem bulkAddChunks_progressive_validation :
    (∀ (data : Project) (catName : String) (specs : List ChunkSpec) (uid ci : Nat),
      findCategoryIdx data catName = some ci →
      (bulkAddChunks catName specs uid data).1.isOk = true ∧
      ∀ r, (bulkAddChunks catName specs uid data).1 = .ok r →
        r.added + r.errors = specs.length ∧
        totalChunks (bulkAddChunks catName specs uid data).2 = totalChunks data + r.added) ∧
    ((bulkAddChunks "Cat" exC2batch 10 exC2proj).1 =
        .ok ⟨1, 1, some [⟨"newx", "Duplicate ID"⟩], ["newx"]⟩ ∧
      totalChunks (bulkAddChunks "Cat" exC2batch 10 exC2proj).2 = totalChunks exC2proj + 1) ∧
    (bulkAddChunks "Cat" [⟨some "  ", some "t", none, none, none, none⟩] 10 exC2proj).1 =
      .ok ⟨0, 1, some [⟨"(empty)", "ID is required"⟩], []⟩ := by
  refine ⟨?_, by decide, by decide⟩
  intro data catName specs uid ci hfind
  have hci : ci < data.categories.length := findIdx?_lt_length _ _ _ hfind
  have hcounts := bulkGo_counts ci specs data [] [] uid hci
  unfold bulkAddChunks
  rw [hfind]
  dsimp only
  refine ⟨rfl, ?_⟩
  intro r hr
  injection hr with hr
  subst hr
  dsimp only
  constructor
  · have := hcounts.1
    simpa using this
  · have := hcounts.2
    simpa using this

/-- Witness for C2: the batch of one valid and one duplicate entry satisfies
the general bulk contract at a concrete input. -/
theorem bulkAddChunks_progressive_validation_witness :
    (bulkAddChunks "Cat" exC2batch 10 exC2proj).1.isOk = true ∧
    (1 : Nat) + 1 = exC2batch.length ∧
    totalChunks (bulkAddChunks "Cat" exC2batch 10 exC2proj).2 = totalChunks exC2proj + 1 := by
  have hgen := (bulkAddChunks_progressive_validation.1 exC2proj "Cat" exC2batch 10 0 rfl)
  have hconc := bulkAddChunks_progressive_validation.2.1
  have hr := hgen.2 ⟨1, 1, some [⟨"newx", "Duplicate ID"⟩], ["newx"]⟩ hconc.1
  exact ⟨hgen.1, hr.1, hr.2⟩

/-! ## C10 -/

theorem jsOr_chain_top (a b : Option String) (d v : String) (ha : a = some v)
    (hv : v ≠ "") : jsOrOS a (jsOrOS b d) = v := by
  subst ha
  simp [jsOrOS, hv]

theorem jsOr_chain_mid (a b : Option String) (d w : String)
    (ha : a = none ∨ a = some "") (hb : b = some w) (hw : w ≠ "") :
    jsOrOS a (jsOrOS b d) = w := by
  subst hb
  rcases ha with ha | ha <;> subst ha <;> simp [jsOrOS, hw]

theorem jsOr_chain_default (a b : Option String) (d : String)
    (ha : a = none ∨ a = some "") (hb : b = none ∨ b = some "") :
    jsOrOS a (jsOrOS b d) = d := by
  rcases ha with ha | ha <;> rcases hb with hb | hb <;> subst ha <;> subst hb <;>
    simp [jsOrOS]

/-- C10: `addChunk` and `bulkAddChunks` build the stored chunk (`mkChunk`)
so that for each standard field a truthy top-level value wins, else a truthy
`metadata` key, else the default (`""`, or the fixed default license); and on
success both operations append exactly that chunk to the resolved category. -/
theorem chunk_metadata_precedence :
    (∀ (spec : ChunkSpec) (id : String) (uid : Nat),
      (∀ v, spec.page_title = some v → v ≠ "" →
        (mkChunk spec id uid).metadata.page_title = v) ∧
      ((spec.page_title = none ∨ spec.page_title = some "") →
        (∀ w, specMetaGet spec "page_title" = some w → w ≠ "" →
          (mkChunk spec id uid).metadata.page_title = w) ∧
        ((specMetaGet spec "page_title" = none ∨ specMetaGet spec "page_title" = some "") →
          (mkChunk spec id uid).metadata.page_title = "")) ∧
      (∀ v, spec.source = some v → v ≠ "" →
        (mkChunk spec id uid).metadata.source = v) ∧
      ((spec.source = none ∨ spec.source = some "") →
        (∀ w, specMetaGet spec "source" = some w → w ≠ "" →
          (mkChunk spec id uid).metadata.source = w) ∧
        ((specMetaGet spec "source" = none ∨ specMetaGet spec "source" = some "") →
          (mkChunk spec id uid).metadata.source = "")) ∧
      (∀ v, spec.license = some v → v ≠ "" →
        (mkChunk spec id uid).metadata.license = v) ∧
      ((spec.license = none ∨ spec.license = some "") →
        (∀ w, specMetaGet spec "license" = some w → w ≠ "" →
          (mkChunk spec id uid).metadata.license = w) ∧
        ((specMetaGet spec "license" = none ∨ specMetaGet spec "license" = some "") →
          (mkChunk spec id uid).metadata.license = DEFAULT_LICENSE))) ∧
    (∀ (data : Project) (catName : String) (spec : ChunkSpec) (uid ci : Nat),
      findCategoryIdx data catName = some ci →
      jsTrim (jsOrOS spec.id "") ≠ "" →
      isIdTaken data (jsTrim (jsOrOS spec.id "")) none = false →
      (addChunk catName spec uid data).2 =
        appendChunkAt data ci (mkChunk spec (jsTrim (jsOrOS spec.id "")) uid) ∧
      (bulkAddChunks catName [spec] uid data).2 =
        appendChunkAt data ci (mkChunk spec (jsTrim (jsOrOS spec.id "")) uid)) := by
  constructor
  · intro spec id uid
    refine ⟨?_, ?_, ?_, ?_, ?_, ?_⟩
    · intro v hv hne; exact jsOr_chain_top _ _ _ _ hv hne
    · intro ha
      exact ⟨fun w hw hne => jsOr_chain_mid _ _ _ _ ha hw hne,
        fun hb => jsOr_chain_default _ _ _ ha hb⟩
    · intro v hv hne; exact jsOr_chain_top _ _ _ _ hv hne
    · intro ha
      exact ⟨fun w hw hne => jsOr_chain_mid _ _ _ _ ha hw hne,
        fun hb => jsOr_chain_default _ _ _ ha hb⟩
    · intro v hv hne; exact jsOr_chain_top _ _ _ _ hv hne
    · intro ha
      exact ⟨fun w hw hne => jsOr_chain_mid _ _ _ _ ha hw hne,
        fun hb => jsOr_chain_default _ _ _ ha hb⟩
  · intro data catName spec uid ci hfind hid htaken
    have hnt : ¬ (isIdTaken data (jsTrim (jsOrOS spec.id "")) none = true) := by
      rw [htaken]; simp
    constructor
    · unfold addChunk
      rw [hfind]
      dsimp only
      rw [if_neg hid, if_neg hnt]
    · unfold bulkAddChunks
      rw [hfind]
      dsimp only
      unfold bulkGo
      dsimp only
      rw [if_neg hid, if_neg hnt]
      rfl

/-- Fixture for the C10 witness: top-level `page_title`, metadata-only
`source`, and a falsy license at both levels. -/
def exC10spec : ChunkSpec :=
  ⟨some "creeper", some "txt", some "TT", none, some "",
   some [("source", "MS"), ("license", ""), ("extra", "e")]⟩

/-- Witness for C10: the precedence facts and the append fact evaluated at a
concrete chunk spec. -/
theorem chunk_metadata_precedence_witness :
    (mkChunk exC10spec "creeper" 3).metadata.page_title = "TT" ∧
    (mkChunk exC10spec "creeper" 3).metadata.source = "MS" ∧
    (mkChunk exC10spec "creeper" 3).metadata.license = DEFAULT_LICENSE ∧
    (addChunk "Cat" exC10spec 3 exC2proj).2 =
      appendChunkAt exC2proj 0 (mkChunk exC10spec (jsTrim (jsOrOS exC10spec.id "")) 3) := by
  obtain ⟨hpre, hops⟩ := chunk_metadata_precedence
  obtain ⟨h1, h2, _, h4, _, h6⟩ := hpre exC10spec "creeper" 3
  refine ⟨h1 "TT" rfl (by decide), ?_, ?_, ?_⟩
  · exact (h4 (Or.inl rfl)).1 "MS" (by decide) (by decide)
  · exact (h6 (Or.inr rfl)).2 (Or.inr (by decide))
  · exact (hops exC2proj "Cat" exC10spec 3 0 rfl (by decide) (by decide)).1

/-! ## C6 -/

theorem updateAt_getD_same (f : α → α) (d : α) :
    ∀ (l : List α) (n : Nat), n < l.length → (updateAt l n f).getD n d = f (l.getD n d) := by
  intro l
  induction l with
  | nil => intro n h; simp at h
  | cons a as ih =>
    intro n h
    cases n with
    | zero => rfl
    | succ m => exact ih m (by simpa using h)

theorem updateAt_getD_other (f : α → α) (d : α) :
    ∀ (l : List α) (n i : Nat), i ≠ n → (updateAt l n f).getD i d = l.getD i d := by
  intro l
  induction l with
  | nil => intro n i _; rfl
  | cons a as ih =>
    intro n i hne
    cases n with
    | zero =>
      cases i with
      | zero => exact absurd rfl hne
      | succ k => rfl
    | succ m =>
      cases i with
      | zero => rfl
      | succ k => exact ih m k (by omega)

theorem set_getD_same (a d : α) :
    ∀ (l : List α) (j : Nat), j < l.length → (l.set j a).getD j d = a := by
  intro l
  induction l with
  | nil => intro j h; simp at h
  | cons x xs ih =>
    intro j h
    cases j with
    | zero => rfl
    | succ m => exact ih m (by simpa using h)

theorem set_getD_other (a d : α) :
    ∀ (l : List α) (j k : Nat), k ≠ j → (l.set j a).getD k d = l.getD k d := by
  intro l
  induction l with
  | nil => intro j k _; rfl
  | cons x xs ih =>
    intro j k hne
    cases j with
    | zero =>
      cases k with
      | zero => exact absurd rfl hne
      | succ m => rfl
    | succ m =>
      cases k with
      | zero => rfl
      | succ n => exact ih m n (by omega)

theorem findIdx?_getD (p : α → Bool) (d : α) :
    ∀ (l : List α) (i : Nat), l.findIdx? p = some i → p (l.getD i d) = true := by
  intro l
  induction l with
  | nil => intro i h; simp [List.findIdx?] at h
  | cons a as ih =>
    intro i h
    rw [List.findIdx?_cons] at h
    by_cases hp : p a
    · simp [hp] at h
      subst h
      simpa using hp
    · simp [hp] at h
      obtain ⟨j, hj, rfl⟩ := h
      exact ih j hj

theorem findChunkPos_bounds (cid : String) :
    ∀ (cats : List Category) (ci j : Nat), findChunkPos cats cid = some (ci, j) →
      ci < cats.length ∧ j < (cats.getD ci dummyCategory).chunks.length ∧
      ((cats.getD ci dummyCategory).chunks.getD j dummyChunk).id = cid := by
  intro cats
  induction cats with
  | nil => intro ci j h; simp [findChunkPos] at h
  | cons c rest ih =>
    intro ci j h
    unfold findChunkPos at h
    cases hf : c.chunks.findIdx? (fun ch => ch.id == cid) with
    | some j₀ =>
      rw [hf] at h
      injection h with h
      have hci : ci = 0 := (congrArg Prod.fst h).symm
      have hj : j = j₀ := (congrArg Prod.snd h).symm
      subst hci
      subst hj
      refine ⟨by simp, findIdx?_lt_length _ _ _ hf, ?_⟩
      have := findIdx?_getD (fun ch => ch.id == cid) dummyChunk c.chunks j hf
      simpa using this
    | none =>
      rw [hf] at h
      cases hrec : findChunkPos rest cid with
      | none => rw [hrec] at h; simp at h
      | some ij =>
        obtain ⟨ci', j'⟩ := ij
        rw [hrec] at h
        simp only [Option.map_some] at h
        injection h with h
        have hci : ci = ci' + 1 := (congrArg Prod.fst h).symm
        have hj : j = j' := (congrArg Prod.snd h).symm
        rw [hci, hj]
        obtain ⟨b1, b2, b3⟩ := ih ci' j' hrec
        exact ⟨by simpa using b1, b2, b3⟩

/-- What changes — and what does not — when one chunk slot is overwritten. -/
theorem setChunkAt_obs (data : Project) (ci j : Nat) (ch : Chunk)
    (hciB : ci < data.categories.length)
    (hjB : j < (data.categories.getD ci dummyCategory).chunks.length) :
    chunkAt (setChunkAt data ci j ch) ci j = ch ∧
    (setChunkAt data ci j ch).name = data.name ∧
    (setChunkAt data ci j ch).createdAt = data.createdAt ∧
    (setChunkAt data ci j ch).categories.length = data.categories.length ∧
    (∀ i, i ≠ ci →
      (setChunkAt data ci j ch).categories.getD i dummyCategory =
        data.categories.getD i dummyCategory) ∧
    ((setChunkAt data ci j ch).categories.getD ci dummyCategory).name =
      (data.categories.getD ci dummyCategory).name ∧
    ((setChunkAt data ci j ch).categories.getD ci dummyCategory).id =
      (data.categories.getD ci dummyCategory).id ∧
    ((setChunkAt data ci j ch).categories.getD ci dummyCategory).chunks.length =
      (data.categories.getD ci dummyCategory).chunks.length ∧
    (∀ k, k ≠ j → chunkAt (setChunkAt data ci j ch) ci k = chunkAt data ci k) := by
  unfold setChunkAt chunkAt
  dsimp only
  refine ⟨?_, rfl, rfl, updateAt_length .., ?_, ?_, ?_, ?_, ?_⟩
  · rw [updateAt_getD_same _ _ _ _ hciB]
    dsimp only
    exact set_getD_same _ _ _ _ hjB
  · intro i hi
    exact updateAt_getD_other _ _ _ _ _ hi
  · rw [updateAt_getD_same _ _ _ _ hciB]
  · rw [updateAt_getD_same _ _ _ _ hciB]
  · rw [updateAt_getD_same _ _ _ _ hciB]
    dsimp only
    exact List.length_set ..
  · intro k hk
    rw [updateAt_getD_same _ _ _ _ hciB]
    dsimp only
    exact set_getD_other _ _ _ _ _ hk

/-- Fixture for C6: one chunk `"x"` carrying one custom field `a = 1`. -/
def exC6proj : Project :=
  ⟨"p", "", [⟨0, "C", [⟨0, "x", "t", ⟨"", "", "L"⟩, [⟨"a", "1"⟩]⟩]⟩]⟩

/-- Counterexample to C6 as stated: supplying `updates.metadata` does NOT
always replace the chunk's custom-fields list — when the supplied object
parses to no custom fields (here it only holds the standard key
`page_title`) the source keeps the old list (`if (custom.length)`), so the
chunk still carries `a = 1` instead of the empty list the claim demands. -/
theorem updateChunk_keeps_customFields_when_parse_empty :
    parseCustomFields (some [("page_title", "zzz")]) = [] ∧
    (updateChunk "x" ⟨none, none, none, none, none, some [("page_title", "zzz")]⟩ exC6proj).1.isOk
      = true ∧
    (chunkAt (updateChunk "x" ⟨none, none, none, none, none, some [("page_title", "zzz")]⟩
        exC6proj).2 0 0).customFields = [⟨"a", "1"⟩] := by
  decide

/-- C6 (amended): `updateChunk` applies exactly the fields present in
`updates` to the located chunk — absent fields, the internal uid, every
other chunk and every other category are untouched — and a supplied
custom-metadata object replaces the custom-fields list precisely when it
parses to at least one custom field; otherwise the old list is kept. -/
theorem updateChunk_applies_only_given_fields :
    ∀ (data : Project) (cid : String) (u : ChunkUpdates) (ci j : Nat),
      findChunkPos data.categories cid = some (ci, j) →
      (updateChunk cid u data).1.isOk = true →
      chunkAt (updateChunk cid u data).2 ci j =
        { uid := (chunkAt data ci j).uid
          id := if jsOrOS u.newId "" ≠ "" ∧ jsOrOS u.newId "" ≠ cid
                then jsTrim (jsOrOS u.newId "") else (chunkAt data ci j).id
          text := u.text.getD (chunkAt data ci j).text
          metadata :=
            { page_title := u.page_title.getD (chunkAt data ci j).metadata.page_title
              source := u.source.getD (chunkAt data ci j).metadata.source
              license := u.license.getD (chunkAt data ci j).metadata.license }
          customFields :=
            match u.metadata with
            | some m =>
              if (parseCustomFields (some m)).length ≠ 0 then parseCustomFields (some m)
              else (chunkAt data ci j).customFields
            | none => (chunkAt data ci j).customFields } ∧
      (updateChunk cid u data).2.name = data.name ∧
      (updateChunk cid u data).2.createdAt = data.createdAt ∧
      (updateChunk cid u data).2.categories.length = data.categories.length ∧
      (∀ i, i ≠ ci →
        (updateChunk cid u data).2.categories.getD i dummyCategory =
          data.categories.getD i dummyCategory) ∧
      ((updateChunk cid u data).2.categories.getD ci dummyCategory).name =
        (data.categories.getD ci dummyCategory).name ∧
      ((updateChunk cid u data).2.categories.getD ci dummyCategory).id =
        (data.categories.getD ci dummyCategory).id ∧
      ((updateChunk cid u data).2.categories.getD ci dummyCategory).chunks.length =
        (data.categories.getD ci dummyCategory).chunks.length ∧
      (∀ k, k ≠ j → chunkAt (updateChunk cid u data).2 ci k = chunkAt data ci k) := by
  intro data cid u ci j hfind hok
  obtain ⟨hciB, hjB, _⟩ := findChunkPos_bounds cid data.categories ci j hfind
  by_cases hc : ((jsOrOS u.newId "" ≠ "" ∧ jsOrOS u.newId "" ≠ cid) ∧
      isIdTaken data (jsOrOS u.newId "")
        (some ((data.categories.getD ci dummyCategory).chunks.getD j dummyChunk).uid) = true)
  · exfalso
    unfold updateChunk at hok
    rw [hfind] at hok
    dsimp only at hok
    rw [if_pos hc] at hok
    simp [Except.isOk, Except.toBool] at hok
  · have hres : (updateChunk cid u data).2 = setChunkAt data ci j
        { uid := (chunkAt data ci j).uid
          id := if jsOrOS u.newId "" ≠ "" ∧ jsOrOS u.newId "" ≠ cid
                then jsTrim (jsOrOS u.newId "") else (chunkAt data ci j).id
          text := u.text.getD (chunkAt data ci j).text
          metadata :=
            { page_title := u.page_title.getD (chunkAt data ci j).metadata.page_title
              source := u.source.getD (chunkAt data ci j).metadata.source
              license := u.license.getD (chunkAt data ci j).metadata.license }
          customFields :=
            match u.metadata with
            | some m =>
              if (parseCustomFields (some m)).length ≠ 0 then parseCustomFields (some m)
              else (chunkAt data ci j).customFields
            | none => (chunkAt data ci j).customFields } := by
      unfold updateChunk
      rw [hfind]
      dsimp only
      rw [if_neg hc]
      rfl
    rw [hres]
    exact setChunkAt_obs data ci j _ hciB hjB

/-- Witness for C6 (amended): a concrete update renaming the chunk, setting
text and page title, and supplying a metadata object with one custom field:
the named fields change, source/license/uid stay, and the custom list is
replaced. -/
theorem updateChunk_applies_only_given_fields_witness :
    chunkAt (updateChunk "x"
        ⟨some "y", some "t2", some "PT", none, none, some [("k", "v"), ("page_title", "ig")]⟩
        exC6proj).2 0 0 =
      { uid := (chunkAt exC6proj 0 0).uid
        id := if jsOrOS (some "y") "" ≠ "" ∧ jsOrOS (some "y") "" ≠ "x"
              then jsTrim (jsOrOS (some "y") "") else (chunkAt exC6proj 0 0).id
        text := (some "t2").getD (chunkAt exC6proj 0 0).text
        metadata :=
          { page_title := (some "PT").getD (chunkAt exC6proj 0 0).metadata.page_title
            source := (none : Option String).getD (chunkAt exC6proj 0 0).metadata.source
            license := (none : Option String).getD (chunkAt exC6proj 0 0).metadata.license }
        customFields :=
          if (parseCustomFields (some [("k", "v"), ("page_title", "ig")])).length ≠ 0
          then parseCustomFields (some [("k", "v"), ("page_title", "ig")])
          else (chunkAt exC6proj 0 0).customFields } := by
  exact (updateChunk_applies_only_given_fields exC6proj "x"
    ⟨some "y", some "t2", some "PT", none, none, some [("k", "v"), ("page_title", "ig")]⟩
    0 0 (by decide) (by decide)).1

/-! ## C7 -/

theorem copyCand_pos (cid : String) (n : Nat) (h : 1 ≤ n) :
    copyCand cid n = cid ++ "_copy_" ++ toString n := by
  cases n with
  | zero => omega
  | succ m => rfl

/-- The fuelled `while` loop of `duplicateChunk` returns the first free
candidate, provided one exists within the fuel. -/
theorem copyIdGo_finds (data : Project) (cid : String) :
    ∀ (fuel n m : Nat), 1 ≤ n → n ≤ m → m < n + fuel →
      isIdTaken data (copyCand cid m) none = false →
      (∀ i, n ≤ i → i < m → isIdTaken data (copyCand cid i) none = true) →
      copyIdGo data cid fuel n = copyCand cid m := by
  intro fuel
  induction fuel with
  | zero => intro n m _ h1 h2 _ _; omega
  | succ f ih =>
    intro n m hn hnm hlt hfree hmin
    unfold copyIdGo
    dsimp only
    rw [← copyCand_pos cid n hn]
    by_cases heq : n = m
    · subst heq
      rw [if_neg (by rw [hfree]; simp)]
    · have hlt' : n < m := by omega
      rw [if_pos (hmin n (Nat.le_refl n) hlt')]
      exact ih (n + 1) m (by omega) (by omega) (by omega) hfree
        (fun i h1 h2 => hmin i (by omega) h2)

/-- `duplicateChunk`'s id derivation returns the first unused candidate of
the sequence `<id>_copy`, `<id>_copy_1`, `<id>_copy_2`, … -/
theorem copyId_finds (data : Project) (cid : String) (k : Nat)
    (hfree : isIdTaken data (copyCand cid k) none = false)
    (hmin : ∀ i, i < k → isIdTaken data (copyCand cid i) none = true)
    (hk : k ≤ totalChunks data + 1) :
    copyId data cid = copyCand cid k := by
  unfold copyId
  by_cases h0 : isIdTaken data (cid ++ "_copy") none = true
  · rw [if_pos h0]
    have hk1 : 1 ≤ k := by
      rcases Nat.eq_zero_or_pos k with h | h
      · exfalso
        have hc0 : copyCand cid 0 = cid ++ "_copy" := rfl
        rw [h, hc0, h0] at hfree
        cases hfree
      · exact h
    exact copyIdGo_finds data cid (totalChunks data + 1) 1 k (Nat.le_refl 1) hk1
      (by omega) hfree (fun i h1 h2 => hmin i h2)
  · rw [if_neg h0]
    rcases Nat.eq_zero_or_pos k with h | h
    · rw [h]; rfl
    · exfalso
      exact h0 (hmin 0 h)

/-- C7: `duplicateChunk` on an existing chunk deep-copies it, gives the
clone a fresh internal uid, appends it to the original's category, and
derives the clone's id by trying `<id>_copy`, `<id>_copy_1`, `<id>_copy_2`,
… until an id unused anywhere in the project is found (here `k` names the
first unused index of that candidate sequence). -/
theorem duplicateChunk_copy_id_scheme :
    ∀ (data : Project) (cid : String) (uid ci j k : Nat),
      findChunkPos data.categories cid = some (ci, j) →
      isIdTaken data (copyCand cid k) none = false →
      (∀ i, i < k → isIdTaken data (copyCand cid i) none = true) →
      k ≤ totalChunks data + 1 →
      duplicateChunk cid uid data =
        (.ok (cid, copyCand cid k, (data.categories.getD ci dummyCategory).name),
         appendChunkAt data ci
           { (data.categories.getD ci dummyCategory).chunks.getD j dummyChunk with
             uid := uid, id := copyCand cid k }) := by
  intro data cid uid ci j k hfind hfree hmin hk
  unfold duplicateChunk
  rw [hfind]
  dsimp only
  rw [copyId_finds data cid k hfree hmin hk]

/-- Fixture for C7: the spec's scenario — `creeper` exists and so does
`creeper_copy`. -/
def exC7proj : Project :=
  ⟨"demo", "",
   [⟨0, "Mobs",
     [⟨0, "creeper", "A hostile mob", ⟨"", "", "L"⟩, []⟩,
      ⟨1, "creeper_copy", "c", ⟨"", "", "L"⟩, []⟩]⟩]⟩

/-- Witness for C7: duplicating `"creeper"` while `"creeper_copy"` already
exists yields `"creeper_copy_1"`, appended to `Mobs` with the fresh uid. -/
theorem duplicateChunk_copy_id_scheme_witness :
    (duplicateChunk "creeper" 7 exC7proj).1 = .ok ("creeper", "creeper_copy_1", "Mobs") ∧
    (duplicateChunk "creeper" 7 exC7proj).2 =
      appendChunkAt exC7proj 0 ⟨7, "creeper_copy_1", "A hostile mob", ⟨"", "", "L"⟩, []⟩ := by
  have h := duplicateChunk_copy_id_scheme exC7proj "creeper" 7 0 0 1 (by decide) (by decide)
    (fun i hi => by
      have h0 : i = 0 := by omega
      rw [h0]
      decide) (by decide)
  rw [h]
  exact ⟨by decide, by decide⟩

/-! ## C3 -/

theorem trimChars_eq_rdropWhile (l : List Char) :
    trimChars l = List.rdropWhile isWs (l.dropWhile isWs) := rfl

theorem dropWhile_first_not (p : α → Bool) :
    ∀ (l : List α) (x : α) (r : List α), l.dropWhile p = x :: r → p x = false := by
  intro l
  induction l with
  | nil => intro x r h; simp [List.dropWhile] at h
  | cons a as ih =>
    intro x r h
    rw [List.dropWhile_cons] at h
    by_cases hp : p a
    · rw [if_pos hp] at h
      exact ih x r h
    · rw [if_neg hp] at h
      injection h with h1 _
      rw [← h1]
      simpa using hp

theorem trimChars_idem (l : List Char) : trimChars (trimChars l) = trimChars l := by
  rw [trimChars_eq_rdropWhile, trimChars_eq_rdropWhile]
  have hA : (List.rdropWhile isWs (l.dropWhile isWs)).dropWhile isWs =
      List.rdropWhile isWs (l.dropWhile isWs) := by
    obtain ⟨t, ht⟩ := List.rdropWhile_prefix isWs (l.dropWhile isWs)
    cases hR : List.rdropWhile isWs (l.dropWhile isWs) with
    | nil => rfl
    | cons x xs =>
      rw [hR] at ht
      have hD : l.dropWhile isWs = x :: (xs ++ t) := by rw [← ht]; rfl
      have hx : isWs x = false := dropWhile_first_not isWs l x (xs ++ t) hD
      rw [List.dropWhile_cons, hx]
      simp
  rw [hA, List.rdropWhile_idempotent]

theorem jsTrim_idem (s : String) : jsTrim (jsTrim s) = jsTrim s :=
  congrArg String.mk (trimChars_idem s.data)

theorem jsOrS_id (x : String) : jsOrS x "" = x := jsOrS_empty_default x

theorem jsOrOS_some_empty (x : String) : jsOrOS (some x) "" = x := by
  by_cases h : x = "" <;> simp [jsOrOS, h]

theorem jsOrOS_some_of_ne (x d : String) (h : x ≠ "") : jsOrOS (some x) d = x := by
  simp [jsOrOS, h]

/-! Basic facts about JS-object insertion. -/

theorem objInsert_keys_of_mem (k v : String) :
    ∀ (m : ObjMap), k ∈ m.map Prod.fst →
      (objInsert m k v).map Prod.fst = m.map Prod.fst := by
  intro m
  induction m with
  | nil => intro h; simp at h
  | cons kv rest ih =>
    intro h
    by_cases hk : kv.1 = k
    · simp [objInsert, hk]
    · simp only [List.map_cons, List.mem_cons] at h
      rcases h with h | h
      · exact absurd h.symm hk
      · simp [objInsert, hk, ih h]

theorem objInsert_of_not_mem (k v : String) :
    ∀ (m : ObjMap), k ∉ m.map Prod.fst → objInsert m k v = m ++ [(k, v)] := by
  intro m
  induction m with
  | nil => intro _; rfl
  | cons kv rest ih =>
    intro h
    simp only [List.map_cons, List.mem_cons] at h
    push_neg at h
    have hk : kv.1 ≠ k := fun hk => h.1 hk.symm
    simp only [objInsert, if_neg hk, List.cons_append]
    rw [ih h.2]

theorem objLookup_objInsert_self (k v : String) :
    ∀ (m : ObjMap), objLookup (objInsert m k v) k = some v := by
  intro m
  induction m with
  | nil => simp [objInsert, objLookup, List.find?]
  | cons kv rest ih =>
    by_cases hk : kv.1 = k
    · simp [objInsert, hk, objLookup, List.find?]
    · simp only [objInsert, hk, if_false]
      simp only [objLookup, List.find?] at ih ⊢
      have : (kv.1 == k) = false := by simpa using hk
      rw [this]
      exact ih

/-- The well-formedness the export transform guarantees of the non-standard
part of an export record's metadata object: keys are pairwise distinct,
outside the standard set, trimmed, and non-blank. -/
def ExtrasOK (extras : ObjMap) : Prop :=
  (extras.map Prod.fst).Nodup ∧
  ∀ kv ∈ extras, kv.1 ∉ STANDARD_META ∧ jsTrim kv.1 = kv.1 ∧ kv.1 ≠ ""

/-- Shape of every metadata object `exportChunk` produces: the three
standard keys first (in fixed order), then well-formed extras. -/
def MetaShaped (M : ObjMap) : Prop :=
  ∃ a b c extras, M = ("page_title", a) :: ("source", b) :: ("license", c) :: extras ∧
    ExtrasOK extras

theorem extrasOK_objInsert (extras : ObjMap) (k v : String) (h : ExtrasOK extras)
    (hstd : k ∉ STANDARD_META) (htrim : jsTrim k = k) (hne : k ≠ "") :
    ExtrasOK (objInsert extras k v) := by
  obtain ⟨hnd, hall⟩ := h
  by_cases hmem : k ∈ extras.map Prod.fst
  · refine ⟨by rw [objInsert_keys_of_mem k v extras hmem]; exact hnd, ?_⟩
    intro kv hkv
    -- every binding of the inserted map has an old key or the inserted key
    have hkeys : kv.1 ∈ (objInsert extras k v).map Prod.fst := List.mem_map_of_mem _ hkv
    rw [objInsert_keys_of_mem k v extras hmem] at hkeys
    obtain ⟨kv₀, hkv₀, hk₀⟩ := List.mem_map.mp hkeys
    have hp := hall kv₀ hkv₀
    exact hk₀ ▸ hp
  · rw [objInsert_of_not_mem k v extras hmem]
    constructor
    · rw [List.map_append]
      simp only [List.map_cons, List.map_nil]
      rw [List.nodup_append]
      exact ⟨hnd, List.nodup_singleton k, by simpa using hmem⟩
    · intro kv hkv
      rw [List.mem_append] at hkv
      rcases hkv with hkv | hkv
      · exact hall kv hkv
      · simp only [List.mem_singleton] at hkv
        rw [hkv]
        exact ⟨hstd, htrim, hne⟩

theorem objInsert_cons_eq (kv : String × String) (m : ObjMap) (k v : String)
    (h : kv.1 = k) : objInsert (kv :: m) k v = (k, v) :: m := by
  simp [objInsert, h]

theorem objInsert_cons_ne (kv : String × String) (m : ObjMap) (k v : String)
    (h : kv.1 ≠ k) : objInsert (kv :: m) k v = kv :: objInsert m k v := by
  simp [objInsert, h]

/-- One step of the export fold preserves the metadata shape. -/
theorem metaShaped_step (M : ObjMap) (cf : CustomField) (h : MetaShaped M) :
    MetaShaped (if cf.key ≠ "" ∧ jsTrim cf.key ≠ "" then objInsert M (jsTrim cf.key) cf.value
      else M) := by
  by_cases hc : cf.key ≠ "" ∧ jsTrim cf.key ≠ ""
  · rw [if_pos hc]
    obtain ⟨a, b, c, extras, hM, hex⟩ := h
    subst hM
    have htrim : jsTrim (jsTrim cf.key) = jsTrim cf.key := jsTrim_idem cf.key
    by_cases h1 : jsTrim cf.key = "page_title"
    · rw [h1, objInsert_cons_eq _ _ _ _ rfl]
      exact ⟨cf.value, b, c, extras, rfl, hex⟩
    · rw [objInsert_cons_ne _ _ _ _ (fun hh => h1 hh.symm)]
      by_cases h2 : jsTrim cf.key = "source"
      · rw [h2, objInsert_cons_eq _ _ _ _ rfl]
        exact ⟨a, cf.value, c, extras, rfl, hex⟩
      · rw [objInsert_cons_ne _ _ _ _ (fun hh => h2 hh.symm)]
        by_cases h3 : jsTrim cf.key = "license"
        · rw [h3, objInsert_cons_eq _ _ _ _ rfl]
          exact ⟨a, b, cf.value, extras, rfl, hex⟩
        · rw [objInsert_cons_ne _ _ _ _ (fun hh => h3 hh.symm)]
          refine ⟨a, b, c, objInsert extras (jsTrim cf.key) cf.value, rfl, ?_⟩
          exact extrasOK_objInsert extras (jsTrim cf.key) cf.value hex
            (by simp [STANDARD_META, h1, h2, h3]) htrim hc.2
  · rw [if_neg hc]
    exact h

/-- The metadata object of every export record is shaped: standard keys
first, then well-formed extras. -/
theorem exportChunk_shape (ch : Chunk) : MetaShaped (exportChunk ch).metadata := by
  unfold exportChunk
  dsimp only
  have h0 : MetaShaped [("page_title", ch.metadata.page_title),
      ("source", ch.metadata.source), ("license", ch.metadata.license)] :=
    ⟨ch.metadata.page_title, ch.metadata.source, ch.metadata.license, [], rfl,
     List.nodup_nil, by intro kv h; simp at h⟩
  generalize hM : [("page_title", ch.metadata.page_title),
      ("source", ch.metadata.source), ("license", ch.metadata.license)] = M at h0 ⊢
  clear hM
  induction ch.customFields generalizing M with
  | nil => exact h0
  | cons cf rest ih =>
    rw [List.foldl_cons]
    exact ih _ (metaShaped_step M cf h0)

theorem objLookup_cons_eq (kv : String × String) (m : ObjMap) (k : String)
    (h : kv.1 = k) : objLookup (kv :: m) k = some kv.2 := by
  simp [objLookup, List.find?_cons, h]

theorem objLookup_cons_ne (kv : String × String) (m : ObjMap) (k : String)
    (h : kv.1 ≠ k) : objLookup (kv :: m) k = objLookup m k := by
  have hb : (kv.1 == k) = false := by simpa using h
  simp [objLookup, List.find?_cons, hb]

/-- Filtering a shaped metadata object down to non-standard keys yields
exactly the extras. -/
theorem shaped_filter (a b c : String) (extras : ObjMap) (hex : ExtrasOK extras) :
    (((("page_title", a) : String × String) :: ("source", b) :: ("license", c) :: extras).filter
      (fun kv => !(STANDARD_META.contains kv.1))) = extras := by
  rw [List.filter_cons, List.filter_cons, List.filter_cons]
  rw [if_neg (by simp [STANDARD_META]), if_neg (by simp [STANDARD_META]),
    if_neg (by simp [STANDARD_META])]
  rw [List.filter_eq_self]
  intro kv hkv
  have := (hex.2 kv hkv).1
  simpa using this

/-- Folding the export step over well-formed extras disjoint from the
accumulator appends them unchanged. -/
theorem exportFold_extras :
    ∀ (extras : ObjMap) (M₀ : ObjMap),
      ExtrasOK extras →
      (∀ kv ∈ extras, kv.1 ∉ M₀.map Prod.fst) →
      ((extras.map (fun kv => (⟨kv.1, kv.2⟩ : CustomField))).foldl
        (fun m cf => if cf.key ≠ "" ∧ jsTrim cf.key ≠ "" then
          objInsert m (jsTrim cf.key) cf.value else m) M₀)
        = M₀ ++ extras := by
  intro extras
  induction extras with
  | nil => intro M₀ _ _; simp
  | cons kv rest ih =>
    intro M₀ hex hdisj
    obtain ⟨hnd, hall⟩ := hex
    obtain ⟨hstd, htrim, hne⟩ := hall kv (List.mem_cons_self ..)
    rw [List.map_cons, List.foldl_cons]
    have hcond : ((⟨kv.1, kv.2⟩ : CustomField).key ≠ "" ∧
        jsTrim (⟨kv.1, kv.2⟩ : CustomField).key ≠ "") := ⟨hne, by dsimp only; rw [htrim]; exact hne⟩
    rw [if_pos hcond]
    dsimp only
    rw [htrim, objInsert_of_not_mem kv.1 kv.2 M₀ (hdisj kv (List.mem_cons_self ..))]
    have hnd' : (rest.map Prod.fst).Nodup := by
      simp only [List.map_cons] at hnd
      exact hnd.of_cons
    have hknotin : kv.1 ∉ rest.map Prod.fst := by
      simp only [List.map_cons, List.nodup_cons] at hnd
      exact hnd.1
    have hih := ih (M₀ ++ [(kv.1, kv.2)])
      ⟨hnd', fun kv' h => hall kv' (List.mem_cons_of_mem _ h)⟩
      (by
        intro kv' h
        rw [List.map_append, List.mem_append]
        push_neg
        refine ⟨hdisj kv' (List.mem_cons_of_mem _ h), ?_⟩
        simp only [List.map_cons, List.map_nil, List.mem_singleton]
        intro heq
        exact hknotin (heq ▸ List.mem_map_of_mem Prod.fst h))
    rw [hih, List.append_assoc]
    rfl

/-- Re-exporting the chunk `importJSON` builds from an export record gives
back the record. -/
theorem export_import_entry (e : ExportEntry) (uid : Nat)
    (hshape : MetaShaped e.metadata)
    (hlic : objLookup e.metadata "license" ≠ some "") :
    exportChunk (importChunk e e.id uid) = e := by
  obtain ⟨eid, etext, eM⟩ := e
  obtain ⟨a, b, c, extras, hM, hex⟩ := hshape
  dsimp only at hM hlic
  subst hM
  have hpt : objLookup (("page_title", a) :: ("source", b) :: ("license", c) :: extras)
      "page_title" = some a := objLookup_cons_eq _ _ _ rfl
  have hsrc : objLookup (("page_title", a) :: ("source", b) :: ("license", c) :: extras)
      "source" = some b := by
    rw [objLookup_cons_ne _ _ _ (by simp)]
    exact objLookup_cons_eq _ _ _ rfl
  have hlicL : objLookup (("page_title", a) :: ("source", b) :: ("license", c) :: extras)
      "license" = some c := by
    rw [objLookup_cons_ne _ _ _ (by simp), objLookup_cons_ne _ _ _ (by simp)]
    exact objLookup_cons_eq _ _ _ rfl
  have hcne : c ≠ "" := by
    intro hcz
    exact hlic (by rw [hlicL, hcz])
  unfold importChunk exportChunk
  dsimp only
  rw [hpt, hsrc, hlicL, jsOrOS_some_empty, jsOrOS_some_empty, jsOrOS_some_of_ne _ _ hcne,
    jsOrS_id, shaped_filter a b c extras hex]
  rw [exportFold_extras extras _ hex]
  · rfl
  · intro kv hkv
    have := (hex.2 kv hkv).1
    simpa [STANDARD_META] using this

theorem exportProject_eq_map (p : Project) :
    exportProject p = (allChunks p).map exportChunk := by
  unfold exportProject allChunks
  generalize p.categories = cats
  induction cats with
  | nil => rfl
  | cons c rest ih => rw [List.flatMap_cons, List.flatMap_cons, List.map_append, ih]

theorem exportProject_single (nm tt cn : String) (cu : Nat) (chs : List Chunk) :
    exportProject ⟨nm, tt, [⟨cu, cn, chs⟩]⟩ = chs.map exportChunk := by
  unfold exportProject
  simp [List.flatMap_cons]

theorem isIdTaken_single (nm tt icat : String) (cu : Nat) (done : List Chunk) (id : String) :
    isIdTaken ⟨nm, tt, [⟨cu, icat, done⟩]⟩ id none = done.any (fun ch => ch.id == id) := by
  unfold isIdTaken
  simp only [List.any_cons, List.any_nil, Bool.or_false]
  have hone : ∀ ch : Chunk, (ch.id == id && (some ch.uid != none)) = (ch.id == id) := by
    intro ch
    rw [show ((some ch.uid != none) : Bool) = true from rfl, Bool.and_true]
  induction done with
  | nil => rfl
  | cons ch rest ih =>
    rw [List.any_cons, List.any_cons, ih]
    rw [hone ch]

/-- The `importJSON` entry loop over a fresh single-category project imports
every well-formed, distinct-id export record, skips none, and stores chunks
that re-export to exactly the input records. -/
theorem importGo_roundtrip (nm tt icat : String) (cu : Nat) :
    ∀ (entries : List ExportEntry) (done : List Chunk) (imported skipped uid : Nat),
      (∀ e ∈ entries, jsTrim e.id = e.id ∧ e.id ≠ "" ∧ MetaShaped e.metadata ∧
        objLookup e.metadata "license" ≠ some "") →
      (done.map (fun ch => ch.id) ++ entries.map (fun e => e.id)).Nodup →
      ∃ done',
        importGo 0 entries ⟨nm, tt, [⟨cu, icat, done⟩]⟩ imported skipped uid =
          (⟨nm, tt, [⟨cu, icat, done'⟩]⟩, imported + entries.length, skipped) ∧
        done'.map exportChunk = done.map exportChunk ++ entries := by
  intro entries
  induction entries with
  | nil =>
    intro done imported skipped uid _ _
    exact ⟨done, by simp [importGo], by simp⟩
  | cons e rest ih =>
    intro done imported skipped uid hprops hnd
    obtain ⟨hid, hidne, hshape, hlic⟩ := hprops e (List.mem_cons_self ..)
    have hid' : jsTrim (jsOrS e.id "") = e.id := by rw [jsOrS_id]; exact hid
    have hnotin : e.id ∉ done.map (fun ch => ch.id) := by
      rw [List.nodup_append] at hnd
      exact fun hmem => hnd.2.2 hmem (List.mem_cons_self ..)
    have htaken : isIdTaken ⟨nm, tt, [⟨cu, icat, done⟩]⟩ e.id none = false := by
      rw [isIdTaken_single]
      rw [List.any_eq_false]
      intro ch hch
      have hne : ch.id ≠ e.id := fun heq => hnotin (heq ▸ List.mem_map_of_mem _ hch)
      simpa using hne
    have happ : appendChunkAt ⟨nm, tt, [⟨cu, icat, done⟩]⟩ 0 (importChunk e e.id uid) =
        ⟨nm, tt, [⟨cu, icat, done ++ [importChunk e e.id uid]⟩]⟩ := rfl
    have hnd' : ((done ++ [importChunk e e.id uid]).map (fun ch => ch.id) ++
        rest.map (fun e => e.id)).Nodup := by
      have hidc : (importChunk e e.id uid).id = e.id := rfl
      rw [List.map_append, List.map_cons, List.map_nil, hidc, List.append_assoc]
      simpa using hnd
    obtain ⟨done', hgo, hexp⟩ := ih (done ++ [importChunk e e.id uid]) (imported + 1) skipped
      (uid + 1) (fun e' h => hprops e' (List.mem_cons_of_mem _ h)) hnd'
    refine ⟨done', ?_, ?_⟩
    · unfold importGo
      dsimp only
      rw [hid', if_neg hidne, if_neg (by rw [htaken]; simp), happ, hgo]
      have harith : imported + 1 + rest.length = imported + (e :: rest).length := by
        rw [List.length_cons]
        omega
      rw [harith]
    · rw [hexp, List.map_append, List.map_cons, List.map_nil,
        export_import_entry e uid hshape hlic, List.append_assoc]
      rfl

/-- C3 (amended): for every project whose chunk ids are trimmed, non-empty
and project-wide unique (the store's invariant) and whose exported records
carry a non-empty `license` value, exporting and importing into a fresh
empty project reproduces exactly the same `{id, text, metadata}` records
(none skipped); and on export a custom field whose key collides with a
standard metadata key overrides the standard value because custom fields
are applied after the standard fields are copied. -/
theorem export_import_roundtrip :
    ∀ (p : Project) (nm tt : String) (uid : Nat),
      (∀ ch ∈ allChunks p, jsTrim ch.id = ch.id ∧ ch.id ≠ "") →
      ((allChunks p).map (fun ch => ch.id)).Nodup →
      (∀ e ∈ exportProject p, objLookup e.metadata "license" ≠ some "") →
      exportProject (importInto ⟨nm, tt, []⟩ (exportProject p) none uid).2 = exportProject p ∧
      (importInto ⟨nm, tt, []⟩ (exportProject p) none uid).1.imported =
        (exportProject p).length ∧
      (importInto ⟨nm, tt, []⟩ (exportProject p) none uid).1.skipped = 0 ∧
      (∀ (ch : Chunk) (l : List CustomField) (k v : String),
        (k = "page_title" ∨ k = "source" ∨ k = "license") →
        ch.customFields = l ++ [⟨k, v⟩] →
        objLookup (exportChunk ch).metadata k = some v) := by
  intro p nm tt uid hWF1 hWF2 hlic
  have hprops : ∀ e ∈ exportProject p, jsTrim e.id = e.id ∧ e.id ≠ "" ∧
      MetaShaped e.metadata ∧ objLookup e.metadata "license" ≠ some "" := by
    intro e he
    have hmem := he
    rw [exportProject_eq_map] at hmem
    obtain ⟨ch, hch, rfl⟩ := List.mem_map.mp hmem
    obtain ⟨h1, h2⟩ := hWF1 ch hch
    exact ⟨h1, h2, exportChunk_shape ch, hlic _ he⟩
  have hids : (exportProject p).map (fun e => e.id) = (allChunks p).map (fun ch => ch.id) := by
    rw [exportProject_eq_map, List.map_map]
    rfl
  have hnd : (([] : List Chunk).map (fun ch => ch.id) ++
      (exportProject p).map (fun e => e.id)).Nodup := by
    rw [List.map_nil, List.nil_append, hids]
    exact hWF2
  obtain ⟨done', hgo, hexp⟩ := importGo_roundtrip nm tt "Imported" uid (exportProject p) []
    0 0 (uid + 1) hprops hnd
  have hres : importInto ⟨nm, tt, []⟩ (exportProject p) none uid =
      ({ category := "Imported", imported := 0 + (exportProject p).length, skipped := 0 },
       ⟨nm, tt, [⟨uid, "Imported", done'⟩]⟩) := by
    unfold importInto
    dsimp only [jsOrOS, List.findIdx?, List.nil_append, List.length_nil]
    rw [hgo]
  rw [hres]
  refine ⟨?_, by simp, rfl, ?_⟩
  · dsimp only
    rw [exportProject_single, hexp, List.map_nil, List.nil_append]
  · intro ch l k v hk hcf
    unfold exportChunk
    dsimp only
    rw [hcf, List.foldl_append, List.foldl_cons, List.foldl_nil]
    rcases hk with hk | hk | hk <;> subst hk
    · rw [if_pos (⟨show ("page_title" : String) ≠ "" from by decide,
          show jsTrim "page_title" ≠ "" from by decide⟩ :
          ((⟨"page_title", v⟩ : CustomField).key ≠ "" ∧
            jsTrim (⟨"page_title", v⟩ : CustomField).key ≠ ""))]
      rw [show jsTrim ((⟨"page_title", v⟩ : CustomField).key) = "page_title" from (by decide : jsTrim "page_title" = "page_title")]
      exact objLookup_objInsert_self ..
    · rw [if_pos (⟨show ("source" : String) ≠ "" from by decide,
          show jsTrim "source" ≠ "" from by decide⟩ :
          ((⟨"source", v⟩ : CustomField).key ≠ "" ∧
            jsTrim (⟨"source", v⟩ : CustomField).key ≠ ""))]
      rw [show jsTrim ((⟨"source", v⟩ : CustomField).key) = "source" from (by decide : jsTrim "source" = "source")]
      exact objLookup_objInsert_self ..
    · rw [if_pos (⟨show ("license" : String) ≠ "" from by decide,
          show jsTrim "license" ≠ "" from by decide⟩ :
          ((⟨"license", v⟩ : CustomField).key ≠ "" ∧
            jsTrim (⟨"license", v⟩ : CustomField).key ≠ ""))]
      rw [show jsTrim ((⟨"license", v⟩ : CustomField).key) = "license" from (by decide : jsTrim "license" = "license")]
      exact objLookup_objInsert_self ..

/-- Fixture for the C3 counterexample: a chunk whose stored license is the
empty string (reachable, e.g. via `bulkUpdateMetadata("license", "")`). -/
def exC3proj : Project := ⟨"p", "", [⟨0, "C", [⟨0, "x", "t", ⟨"", "", ""⟩, []⟩]⟩]⟩

/-- Counterexample to C3 as stated: the round trip is not the identity for
every project.  A chunk with an empty `license` exports `license = ""`, but
`importJSON` treats the falsy value as absent and re-defaults it, so the
re-export differs from the original export. -/
theorem roundtrip_fails_on_empty_license :
    exportProject (importInto ⟨"fresh", "", []⟩ (exportProject exC3proj) none 0).2 ≠
      exportProject exC3proj := by
  decide

/-- Fixture for the C3 witness: standard fields, a custom key that trims to
the standard key `license` (the collision the spec calls out), and a plain
custom field. -/
def exC3Wproj : Project :=
  ⟨"p", "",
   [⟨0, "C", [⟨0, "c1", "t", ⟨"PT", "S", "L"⟩, [⟨" license ", "CustomL"⟩, ⟨"extra", "e1"⟩]⟩]⟩]⟩

/-- Witness for C3 (amended): the round trip at a concrete well-formed
project, including a custom-key collision on `license`, reproduces the
export exactly with nothing skipped. -/
theorem export_import_roundtrip_witness :
    exportProject (importInto ⟨"fresh", "", []⟩ (exportProject exC3Wproj) none 0).2 =
      exportProject exC3Wproj ∧
    (importInto ⟨"fresh", "", []⟩ (exportProject exC3Wproj) none 0).1.skipped = 0 := by
  have h := export_import_roundtrip exC3Wproj "fresh" "" 0 (by decide) (by decide) (by decide)
  exact ⟨h.1, h.2.2.1⟩

end Tryll
